import Mathlib

/-!
Verification of the NET puzzle core (`net_logic.py`).

The Python module is shallowly embedded here:

* connection masks are `Nat` values (4 direction bits `UP = 1`, `RIGHT = 2`,
  `DOWN = 4`, `LEFT = 8`);
* the live / solution grids of the `NetGameLogic` session object are kept as
  `List (List Nat)` (matching the Python list-of-rows representation,
  including Python's negative-index semantics where it matters);
* the generation / solver / connectivity algorithms, which only ever index
  in bounds, work over functional grids `Int × Int → Nat` with explicit
  pointwise update;
* Python's `random.shuffle` / `random.choice` are modelled by explicit
  oracle parameters (a permutation of the direction list, the branch count,
  and an index-picking function), so theorems quantify over every behaviour
  of the random source;
* the unbounded `while stack:` loops are modelled with explicit fuel, and
  fuel adequacy (the stack empties within the provided fuel) is proved.
-/

namespace NetPuzzle

/-- `Direction` bit constants from `net_logic.py` (`IntFlag`). -/
def UP : Nat := 1

def RIGHT : Nat := 2

def DOWN : Nat := 4

def LEFT : Nat := 8

/-- `rotate_direction`: 90° clockwise rotation of a 4-bit connection mask.
Faithful translation of the bit-test/or accumulation in the source. -/
def rotate_direction (direction : Nat) : Nat :=
  let result := 0
  let result := if direction &&& UP ≠ 0 then result ||| RIGHT else result
  let result := if direction &&& RIGHT ≠ 0 then result ||| DOWN else result
  let result := if direction &&& DOWN ≠ 0 then result ||| LEFT else result
  let result := if direction &&& LEFT ≠ 0 then result ||| UP else result
  result

/-- `rotate_direction_ccw`: 90° counter-clockwise rotation. -/
def rotate_direction_ccw (direction : Nat) : Nat :=
  let result := 0
  let result := if direction &&& UP ≠ 0 then result ||| LEFT else result
  let result := if direction &&& LEFT ≠ 0 then result ||| DOWN else result
  let result := if direction &&& DOWN ≠ 0 then result ||| RIGHT else result
  let result := if direction &&& RIGHT ≠ 0 then result ||| UP else result
  result

/-- `k`-fold clockwise rotation. -/
def rotIter (k : Nat) (m : Nat) : Nat := rotate_direction^[k] m

/-- A solver move `(x, y, 'cw'|'ccw')` as produced by `collect_moves`. -/
abbrev Move : Type := Int × Int × String

/-- Python list-index resolution: negative indices count from the end;
a still-out-of-range index raises `IndexError` (modelled as `none`). -/
def pyIdx (len : Nat) (i : Int) : Option Nat :=
  let j := if i < 0 then i + len else i
  if 0 ≤ j ∧ j < len then some j.toNat else none

/-- Python `l[i]` on a list. -/
def pyGet {α : Type} (l : List α) (i : Int) : Option α :=
  (pyIdx l.length i).bind fun j => l.get? j

/-- Python `l[i] = a` on a list. -/
def pySet {α : Type} (l : List α) (i : Int) (a : α) : Option (List α) :=
  (pyIdx l.length i).map fun j => l.set j a

/-- The mutable state of the Python `NetGameLogic` session object.
Grids are lists of rows, indexed `grid[y][x]`, exactly as in the source;
the two grid snapshots initialised to `None` in `__init__` are `Option`s. -/
structure NetGameLogic where
  width : Nat
  height : Nat
  cell_size : Nat
  user_move_count : Nat
  scrambled_state_for_greedy : Option (List (List Nat))
  solving_animation_running : Bool
  greedy_solution_moves : List Move
  greedy_animation_index : Nat
  greedy_step_count : Nat
  initial_scrambled_grid : Option (List (List Nat))
  grid : List (List Nat)
  tile_types : List (List Nat)
  solution : List (List Nat)
  server_pos : Int × Int
  deriving DecidableEq

/-- `clone_grid`: `[[grid[y][x] for x in range(self.width)] for y in range(self.height)]`.
In every call site the argument has exactly `height` rows of `width` cells,
so the `getD` default is never consulted. -/
def clone_grid (w h : Nat) (g : List (List Nat)) : List (List Nat) :=
  (List.range h).map fun y => (List.range w).map fun x => (g.getD y []).getD x 0

/-- `left_rotate_at`: clockwise rotation of one live cell plus move-counter
increment.  The source does `self.grid[y][x]` with NO bounds check, so the
embedding uses Python list-index semantics: negative in-range indices wrap
around, and a genuinely out-of-range index raises (result `none`). -/
def left_rotate_at (s : NetGameLogic) (x y : Int) : Option (Bool × NetGameLogic) := do
  let row ← pyGet s.grid y
  let v ← pyGet row x
  if v = 0 then
    return (false, s)
  else
    let row2 ← pySet row x (rotate_direction v)
    let grid2 ← pySet s.grid y row2
    return (true, { s with grid := grid2, user_move_count := s.user_move_count + 1 })

/-- `right_rotate_at`: counter-clockwise rotation of one live cell. -/
def right_rotate_at (s : NetGameLogic) (x y : Int) : Option (Bool × NetGameLogic) := do
  let row ← pyGet s.grid y
  let v ← pyGet row x
  if v = 0 then
    return (false, s)
  else
    let row2 ← pySet row x (rotate_direction_ccw v)
    let grid2 ← pySet s.grid y row2
    return (true, { s with grid := grid2, user_move_count := s.user_move_count + 1 })

/-- `restart_game`: restore the initial scrambled snapshot.
Python's `if not self.initial_scrambled_grid: return` is falsy both for
`None` and for an empty list. -/
def restart_game (s : NetGameLogic) : NetGameLogic :=
  match s.initial_scrambled_grid with
  | none => s
  | some snap =>
    if snap.isEmpty then s
    else
      let grid2 := clone_grid s.width s.height snap
      { s with
        user_move_count := 0
        solving_animation_running := false
        grid := grid2
        scrambled_state_for_greedy := some (clone_grid s.width s.height grid2)
        greedy_solution_moves := []
        greedy_animation_index := 0
        greedy_step_count := 0 }

/-- Cell access `g[y][x]` on a list-of-rows grid, as an `Option`. -/
def gridCell (g : List (List Nat)) (x y : Nat) : Option Nat :=
  (g.get? y).bind fun row => row.get? x

/-! ## Functional grids

The generation, connectivity and solver algorithms index their grids
in bounds only, so they are embedded over grids-as-functions
`Int × Int → Nat` with explicit pointwise update. -/

/-- A cell coordinate `(x, y)`. -/
abbrev Cell : Type := Int × Int

/-- A connection-mask grid as a total function (0 outside the grid). -/
abbrev Grid : Type := Cell → Nat

/-- Pointwise grid update. -/
def gupd (g : Grid) (c : Cell) (v : Nat) : Grid :=
  fun c' => if c' = c then v else g c'

/-- View of a list-of-rows grid as a functional grid (0-padded). -/
def gridFun (g : List (List Nat)) : Grid :=
  fun c => (g.getD c.2.toNat []).getD c.1.toNat 0

/-- The canonical direction table
`[(0,-1,UP,DOWN), (1,0,RIGHT,LEFT), (0,1,DOWN,UP), (-1,0,LEFT,RIGHT)]`
(`dx`, `dy`, direction bit, opposite bit). -/
def directionsList : List (Int × Int × Nat × Nat) :=
  [(0, -1, UP, DOWN), (1, 0, RIGHT, LEFT), (0, 1, DOWN, UP), (-1, 0, LEFT, RIGHT)]

/-- `0 <= x < width and 0 <= y < height`. -/
def inBounds (w h : Nat) (c : Cell) : Prop :=
  0 ≤ c.1 ∧ c.1 < (w : Int) ∧ 0 ≤ c.2 ∧ c.2 < (h : Int)

instance inBounds.dec (w h : Nat) (c : Cell) : Decidable (inBounds w h c) := by
  unfold inBounds
  infer_instance

/-- The two consecutive `|=` writes of one connection step:
`grid[y][x] |= d` then `grid[ny][nx] |= o`. -/
def connectCell (g : Grid) (a b : Cell) (d o : Nat) : Grid :=
  let g1 := gupd g a (g a ||| d)
  gupd g1 b (g1 b ||| o)

/-- The fixed server position `(width // 2, height // 2)`. -/
def serverPos (w h : Nat) : Cell := ((w / 2 : Nat), (h / 2 : Nat))

/-! ## Grid generation (`new_game`, tree-construction phase)

`random.shuffle(directions)` is modelled by quantifying over every
permutation `dirs` of `directionsList`; `random.choice([2, 3])` by a
parameter `initial_branches ∈ {2, 3}`; and `random.choice(neighbors)` by an
oracle `pick : Nat → Nat` consulted at each DFS step `t` and reduced
modulo the (nonempty) neighbour-list length, which reaches every possible
choice.  The `while stack:` loop carries explicit fuel; fuel adequacy is
proved below. -/

/-- Mutable generation state: the grid being built, the `visited` set and
the DFS `stack` (head = top of the Python list). -/
structure GenState where
  grid : Grid
  visited : Finset Cell
  stack : List Cell

/-- The initial-branch loop of `new_game`: connect the server to up to
`initial_branches` of its in-bounds neighbours, in `dirs` order. -/
def branch_loop (w h : Nat) (server : Cell) :
    List (Int × Int × Nat × Nat) → Nat → GenState → GenState
  | [], _, s => s
  | (dx, dy, d, o) :: rest, b, s =>
    if b = 0 then s
    else
      let n := (server.1 + dx, server.2 + dy)
      if inBounds w h n then
        branch_loop w h server rest (b - 1)
          { grid := connectCell s.grid server n d o
            visited := insert n s.visited
            stack := n :: s.stack }
      else branch_loop w h server rest b s

/-- One-direction neighbour candidates of the DFS top cell: in-bounds and
unvisited, collected in `dirs` order. -/
def dfsNeighbors (w h : Nat) (dirs : List (Int × Int × Nat × Nat))
    (visited : Finset Cell) (c : Cell) : List (Cell × Nat × Nat) :=
  dirs.filterMap fun (dx, dy, direction, opposite) =>
    let n := (c.1 + dx, c.2 + dy)
    if inBounds w h n ∧ n ∉ visited then some (n, direction, opposite) else none

/-- The `while stack:` DFS loop of `new_game`. -/
def dfs_loop (w h : Nat) (dirs : List (Int × Int × Nat × Nat)) (pick : Nat → Nat) :
    Nat → Nat → GenState → GenState
  | 0, _, s => s
  | fuel + 1, t, s =>
    match s.stack with
    | [] => s
    | c :: rest =>
      let neighbors := dfsNeighbors w h dirs s.visited c
      if hne : neighbors = [] then
        dfs_loop w h dirs pick fuel (t + 1) { s with stack := rest }
      else
        let (n, direction, opposite) :=
          neighbors.get ⟨pick t % neighbors.length,
            Nat.mod_lt _ (List.length_pos.mpr hne)⟩
        dfs_loop w h dirs pick fuel (t + 1)
          { grid := connectCell s.grid c n direction opposite
            visited := insert n s.visited
            stack := n :: s.stack }

/-- The spanning-tree construction of `new_game` (its state after
`# Save solution`): branch phase followed by iterative DFS.  The final
`grid` field is the solution grid; `visited` is the set of generated
cells. -/
def new_game_solution (w h : Nat) (dirs : List (Int × Int × Nat × Nat))
    (initial_branches : Nat) (pick : Nat → Nat) : GenState :=
  let server := serverPos w h
  let s0 : GenState := { grid := fun _ => 0, visited := {server}, stack := [] }
  let s1 := branch_loop w h server dirs initial_branches s0
  dfs_loop w h dirs pick (2 * (w * h) + 2) 0 s1

/-! ## Connectivity analyzer (`get_connected_cells`) -/

/-- One iteration body folded over the direction table: from the popped
cell `c` with mask `current`, push every in-bounds, unvisited neighbour
whose opposite bit reciprocates. -/
def connectivity_fold (w h : Nat) (g : Grid) (c : Cell) (current : Nat)
    (acc : Finset Cell × List Cell) (entry : Int × Int × Nat × Nat) :
    Finset Cell × List Cell :=
  let (dx, dy, direction, opposite) := entry
  if current &&& direction ≠ 0 then
    let n := (c.1 + dx, c.2 + dy)
    if inBounds w h n ∧ n ∉ acc.1 ∧ g n &&& opposite ≠ 0 then
      (insert n acc.1, n :: acc.2)
    else acc
  else acc

/-- The `while stack:` loop of `get_connected_cells` (fuelled). -/
def connectivity_loop (w h : Nat) (g : Grid) :
    Nat → Finset Cell → List Cell → Finset Cell
  | 0, connected, _ => connected
  | fuel + 1, connected, stack =>
    match stack with
    | [] => connected
    | c :: rest =>
      let current := g c
      let acc := directionsList.foldl (connectivity_fold w h g c current) (connected, rest)
      connectivity_loop w h g fuel acc.1 acc.2

/-- `get_connected_cells`: DFS of the cells mutually connected to the
server in the live grid. -/
def get_connected_cells (w h : Nat) (server : Cell) (g : Grid) : Finset Cell :=
  connectivity_loop w h g (2 * (w * h) + 3) {server} [server]

/-! ## Tree-DP solver (`solve_with_tree_dp`) -/

/-- Phase 1 of `solve_with_tree_dp`: the adjacency map built from the
solution grid.  The Python dict has exactly the in-bounds cells as keys
(empty list for blank cells); out-of-bounds arguments, never queried by
the source, yield `[]`. -/
def adjacency (w h : Nat) (solution : Grid) : Cell → List Cell := fun c =>
  if ¬ inBounds w h c then []
  else if solution c = 0 then []
  else
    directionsList.filterMap fun (dx, dy, d, _o) =>
      if solution c &&& d ≠ 0 then
        let n := (c.1 + dx, c.2 + dy)
        if inBounds w h n then some n else none
      else none

/-- The body of the `while ... and cnt < 4` rotation-search loops of
`collect_moves`, recursing on the remaining iteration budget.  The budget
`4 - cnt` dominates the loop guard `cnt < 4`, so exhausting it can only
happen at `cnt = 4`, where the guard is false anyway: the fuelled
recursion computes exactly the `while` loop. -/
def whileRotFuel (f : Nat → Nat) (target : Nat) : Nat → Nat → Nat → Nat
  | 0, _, cnt => cnt
  | fuel + 1, val, cnt =>
    if val ≠ target ∧ cnt < 4 then whileRotFuel f target fuel (f val) (cnt + 1) else cnt

/-- The `while val != target and cnt < 4` loop: repeatedly apply `f`
until the value equals `target` or the counter reaches 4. -/
def whileRot (f : Nat → Nat) (target : Nat) (val : Nat) (cnt : Nat) : Nat :=
  whileRotFuel f target (4 - cnt) val cnt

/-- The per-tile body of `collect_moves`: the emitted moves for `node`
(clockwise/counter-clockwise search, ties broken toward clockwise). -/
def movesForCell (start solution : Grid) (node : Cell) : List Move :=
  let current := start node
  let target := solution node
  if current ≠ target then
    let cw_cnt := whileRot rotate_direction target current 0
    let ccw_cnt := whileRot rotate_direction_ccw target current 0
    if cw_cnt ≤ ccw_cnt then List.replicate cw_cnt (node.1, node.2, "cw")
    else List.replicate ccw_cnt (node.1, node.2, "ccw")
  else []

/-- The recursive `collect_moves` traversal (children = adjacency minus
parent), fuelled; fuel adequacy on generated trees is proved below. -/
def collect_moves (start solution : Grid) (adj : Cell → List Cell) :
    Nat → Cell → Option Cell → List Move
  | 0, _, _ => []
  | fuel + 1, node, parent =>
    movesForCell start solution node ++
      (adj node).flatMap fun child =>
        if some child ≠ parent then collect_moves start solution adj fuel child (some node)
        else []

/-- `solve_with_tree_dp` over functional grids.  The source first runs the
memoized `solve_subtree(root, None)` cost pass, but `collect_moves` binds
its result to an unused variable and recomputes every tile's rotation
directly from `start_grid` and the solution, so the returned move list is
exactly the `collect_moves` traversal from the server. -/
def solve_with_tree_dp (w h : Nat) (server : Cell) (solution start : Grid) : List Move :=
  let adj := adjacency w h solution
  collect_moves start solution adj (w * h + 1) server none

/-- `greedy_solve_full`: wrapper kept for UI compatibility. -/
def greedy_solve_full (w h : Nat) (server : Cell) (solution start : Grid) : List Move :=
  solve_with_tree_dp w h server solution start

/-- The session method `solve_with_tree_dp(self, start_grid)`: it reads
`self.width/height/server_pos/solution` and assigns no attribute, so the
session state component of the result is the unchanged input state. -/
def NetGameLogic.solve_with_tree_dp (s : NetGameLogic) (start : List (List Nat)) :
    List Move × NetGameLogic :=
  (NetPuzzle.solve_with_tree_dp s.width s.height s.server_pos
      (gridFun s.solution) (gridFun start), s)

/-- The session method `greedy_solve_full(self, start_grid)`, which just
delegates. -/
def NetGameLogic.greedy_solve_full (s : NetGameLogic) (start : List (List Nat)) :
    List Move × NetGameLogic :=
  NetGameLogic.solve_with_tree_dp s start

/-- Applying one solver move: rotate the named cell one step clockwise
(`"cw"`) or counter-clockwise (`"ccw"`), as the tag says. -/
def applyMove (g : Grid) (m : Move) : Grid :=
  let (x, y, dir) := m
  gupd g (x, y) (if dir = "cw" then rotate_direction (g (x, y)) else rotate_direction_ccw (g (x, y)))

/-- Applying a move list in order. -/
def applyMoves (moves : List Move) (g : Grid) : Grid :=
  moves.foldl applyMove g

/-- Population count of a 4-bit connection mask
(`bin(x).count('1')` in the source, for mask values 0–15). -/
def popcountMask (m : Nat) : Nat :=
  m % 2 + m / 2 % 2 + m / 4 % 2 + m / 8 % 2

/-- A concrete 1×1 session: live mask `UP`, solution mask `RIGHT`,
server at the centre cell `(0, 0)`. -/
def sessionOneCell : NetGameLogic :=
  { width := 1, height := 1, cell_size := 75, user_move_count := 0
    scrambled_state_for_greedy := some [[1]], solving_animation_running := false
    greedy_solution_moves := [], greedy_animation_index := 0, greedy_step_count := 0
    initial_scrambled_grid := some [[1]], grid := [[1]], tile_types := [[2]]
    solution := [[2]], server_pos := (0, 0) }

/-- A concrete 3×1 solution grid: `(0,0)–(1,0)–(2,0)` path, server `(1,0)`. -/
def solThreeByOne : Grid := gridFun [[2, 10, 8]]

/-- A corrupted 3×1 starting grid: cell `(0,0)` has mask 3 (two bits) where
the solution mask 2 has one bit — not reachable by any rotation. -/
def startThreeByOneBad : Grid := gridFun [[3, 10, 8]]

/-- The in-bounds cells of a `w × h` grid, as a finite set. -/
def cellsFinset (w h : Nat) : Finset Cell :=
  Finset.Ico (0 : Int) (w : Int) ×ˢ Finset.Ico (0 : Int) (h : Int)

/-- A mutually matching edge of grid `g`: `b` is the in-bounds neighbour
of `a` in some direction whose bit is set in `a`'s mask, and `b`'s mask
has the opposite bit set. -/
def mutualStep (w h : Nat) (g : Grid) (a b : Cell) : Prop :=
  ∃ dx dy d o, (dx, dy, d, o) ∈ directionsList ∧ b = (a.1 + dx, a.2 + dy) ∧
    inBounds w h b ∧ g a &&& d ≠ 0 ∧ g b &&& o ≠ 0

/-- Reachability through mutually matching edges. -/
def mutualReach (w h : Nat) (g : Grid) (a b : Cell) : Prop :=
  Relation.ReflTransGen (mutualStep w h g) a b

/-- The neighbour of `c` in the direction of table entry `e`. -/
def offCell (c : Cell) (e : Int × Int × Nat × Nat) : Cell :=
  (c.1 + e.1, c.2 + e.2.1)

/-- Sum of the per-cell population counts over the grid: twice the number
of (mutually matching) tree edges in a generated solution grid. -/
def sumPop (w h : Nat) (g : Grid) : Nat :=
  ∑ c ∈ cellsFinset w h, popcountMask (g c)

/-- Number of non-blank (non-zero-mask) cells. -/
def nonblankCount (w h : Nat) (g : Grid) : Nat :=
  ((cellsFinset w h).filter fun c => g c ≠ 0).card

/-- Number of in-bounds neighbours of a cell. -/
def inBoundsNeighborCount (w h : Nat) (c : Cell) : Nat :=
  directionsList.countP fun e => decide (inBounds w h (offCell c e))

/-- Bitwise growth of grids: every set direction bit stays set. -/
def maskGrows (g g' : Grid) : Prop :=
  ∀ c, ∀ d ∈ [UP, RIGHT, DOWN, LEFT], g c &&& d ≠ 0 → g' c &&& d ≠ 0

/-- The rooted-tree structure of a partially generated solution grid: the
server has depth 0; every visited non-server cell has a parent inside the
visited set, one step closer to the server (strictly smaller depth),
joined to it by a mutually matching edge in both orientations; and every
mutually matching edge of the grid is such a parent edge in one of its
two orientations. -/
def TreeData (w h : Nat) (g : Grid) (V : Finset Cell) (server : Cell)
    (par : Cell → Cell) (dep : Cell → Nat) : Prop :=
  dep server = 0 ∧
  (∀ c ∈ V, c ≠ server → par c ∈ V ∧ dep c = dep (par c) + 1 ∧
    mutualStep w h g c (par c) ∧ mutualStep w h g (par c) c) ∧
  (∀ a b, mutualStep w h g a b →
    (b ≠ server ∧ b ∈ V ∧ par b = a) ∨ (a ≠ server ∧ a ∈ V ∧ par a = b))

/-- The loop invariant of the `new_game` generation state. -/
structure GenInv (w h : Nat) (server : Cell) (s : GenState) : Prop where
  visited_inb : ∀ c ∈ s.visited, inBounds w h c
  server_mem : server ∈ s.visited
  stack_sub : ∀ c ∈ s.stack, c ∈ s.visited
  server_not_stack : server ∉ s.stack
  mask_lt : ∀ c, s.grid c < 16
  blank_unvisited : ∀ c, c ∉ s.visited → s.grid c = 0
  nonblank_visited : ∀ c ∈ s.visited, c ≠ server → s.grid c ≠ 0
  sym : ∀ a, ∀ e ∈ directionsList, s.grid a &&& e.2.2.1 ≠ 0 →
    inBounds w h (offCell a e) ∧ s.grid (offCell a e) &&& e.2.2.2 ≠ 0
  reach : ∀ c ∈ s.visited, mutualReach w h s.grid server c
  card_sum : sumPop w h s.grid = 2 * (s.visited.card - 1)
  tree : ∃ par dep, TreeData w h s.grid s.visited server par dep

/-- DFS frontier invariant: every visited cell is the server, still on
the stack, or has all of its in-bounds neighbours visited. -/
def Frontier (w h : Nat) (server : Cell) (s : GenState) : Prop :=
  ∀ c ∈ s.visited, c = server ∨ c ∈ s.stack ∨
    ∀ e ∈ directionsList, inBounds w h (offCell c e) → offCell c e ∈ s.visited

/-- Grid adjacency between two in-bounds cells, both different from a
distinguished `avoid` cell (proof device for the spanning argument). -/
def adjAvoid (w h : Nat) (avoid : Cell) (a b : Cell) : Prop :=
  inBounds w h a ∧ inBounds w h b ∧ a ≠ avoid ∧ b ≠ avoid ∧
    ∃ e ∈ directionsList, b = offCell a e

/-- Connectivity of the grid graph with one cell removed. -/
def reachAvoid (w h : Nat) (avoid : Cell) (a b : Cell) : Prop :=
  Relation.ReflTransGen (adjAvoid w h avoid) a b

/-- Iterated counter-clockwise rotation. -/
def ccwIter (k : Nat) (m : Nat) : Nat := rotate_direction_ccw^[k] m

/-- The clockwise rotation distance named by the specification: the least
`k` in 0–3 such that `k` clockwise rotations of `cur` give `target`
(4 if no such `k` exists). -/
def cwStepsSpec (cur target : Nat) : Nat :=
  (List.range 4).findIdx fun k => rotIter k cur == target

/-- The list of nodes visited by the `collect_moves` traversal, in
traversal order (same recursion skeleton as `collect_moves`). -/
def travList (adj : Cell → List Cell) : Nat → Cell → Option Cell → List Cell
  | 0, _, _ => []
  | fuel + 1, node, parent =>
    node :: (adj node).flatMap fun child =>
      if some child ≠ parent then travList adj fuel child (some node) else []

/-- `c` lies in the subtree rooted at `n` of the parent structure
`(par, dep)`: iterating `par` from `c` for the depth difference reaches
`n` (proof device for the traversal argument). -/
def inSubtree (par : Cell → Cell) (dep : Cell → Nat) (V : Finset Cell)
    (n c : Cell) : Prop :=
  c ∈ V ∧ dep n ≤ dep c ∧ par^[dep c - dep n] c = n

/-! ## Theorems -/

/-- C3: for every mask value `m` in 0–15, `rotate_direction_ccw` inverts
`rotate_direction`, and four clockwise rotations are the identity. -/
theorem rotate_direction_roundtrip (m : Nat) (hm : m < 16) :
    rotate_direction_ccw (rotate_direction m) = m ∧ rotIter 4 m = m := by
  have h : ∀ n < 16, rotate_direction_ccw (rotate_direction n) = n ∧ rotIter 4 n = n := by
    decide
  exact h m hm

/-- Witness for C3 at `m = 5`. -/
theorem rotate_direction_roundtrip_witness :
    (5 : Nat) < 16 ∧
      (rotate_direction_ccw (rotate_direction 5) = 5 ∧ rotIter 4 5 = 5) :=
  ⟨by decide, rotate_direction_roundtrip 5 (by decide)⟩

/-- C6 (code bug): the rotation operations perform NO bounds check.
At the out-of-bounds coordinate `x = -1` Python's negative indexing remaps
the access to the last column, so `left_rotate_at` MUTATES cell `(0,0)` of
the 1×1 session, increments the move counter, and returns `True` — instead
of rejecting; and at `x = 1` (≥ width) the unguarded indexing raises
`IndexError` (result `none`) instead of returning failure. -/
theorem rotate_at_out_of_bounds_bug :
    left_rotate_at sessionOneCell (-1) 0 =
        some (true, { sessionOneCell with grid := [[2]], user_move_count := 1 }) ∧
      right_rotate_at sessionOneCell (-1) 0 =
        some (true, { sessionOneCell with grid := [[8]], user_move_count := 1 }) ∧
      left_rotate_at sessionOneCell 1 0 = none ∧
      right_rotate_at sessionOneCell 0 1 = none := by
  decide

/-- C7: at an in-bounds coordinate, rotating a blank cell is a `False`
no-op leaving the whole session unchanged; rotating a non-blank cell
returns `True`, rewrites exactly that one cell (`left_rotate_at` one step
clockwise, `right_rotate_at` one step counter-clockwise), leaves every
other cell and every other session field unchanged, and increments
`user_move_count` by exactly 1. -/
theorem rotate_at_in_bounds_spec (s : NetGameLogic) (x y : Int)
    (hrows : s.grid.length = s.height)
    (hcols : ∀ row ∈ s.grid, row.length = s.width)
    (hx0 : 0 ≤ x) (hx1 : x < (s.width : Int))
    (hy0 : 0 ≤ y) (hy1 : y < (s.height : Int)) :
    ∃ v, gridCell s.grid x.toNat y.toNat = some v ∧
      ((v = 0 →
          left_rotate_at s x y = some (false, s) ∧
          right_rotate_at s x y = some (false, s)) ∧
        (v ≠ 0 →
          ∃ sL sR,
            left_rotate_at s x y = some (true, sL) ∧
            right_rotate_at s x y = some (true, sR) ∧
            (∀ i j, gridCell sL.grid i j =
              if i = x.toNat ∧ j = y.toNat then some (rotate_direction v)
              else gridCell s.grid i j) ∧
            (∀ i j, gridCell sR.grid i j =
              if i = x.toNat ∧ j = y.toNat then some (rotate_direction_ccw v)
              else gridCell s.grid i j) ∧
            sL.user_move_count = s.user_move_count + 1 ∧
            sR.user_move_count = s.user_move_count + 1 ∧
            sL.solution = s.solution ∧ sR.solution = s.solution ∧
            sL.tile_types = s.tile_types ∧ sR.tile_types = s.tile_types ∧
            sL.server_pos = s.server_pos ∧ sR.server_pos = s.server_pos ∧
            sL.initial_scrambled_grid = s.initial_scrambled_grid ∧
            sR.initial_scrambled_grid = s.initial_scrambled_grid)) := by
  have hylen : y.toNat < s.grid.length := by omega
  set row := s.grid.get ⟨y.toNat, hylen⟩ with hrowdef
  have hrow : s.grid.get? y.toNat = some row := List.get?_eq_get hylen
  have hrowmem : row ∈ s.grid := List.get_mem _ _ _
  have hrowlen : row.length = s.width := hcols row hrowmem
  have hxlen : x.toNat < row.length := by omega
  set v := row.get ⟨x.toNat, hxlen⟩ with hvdef
  have hv : row.get? x.toNat = some v := List.get?_eq_get hxlen
  have hpyy : pyIdx s.grid.length y = some y.toNat := by
    unfold pyIdx
    have : ¬ y < 0 := by omega
    simp only [this, if_false]
    rw [if_pos]
    omega
  have hpyx : pyIdx row.length x = some x.toNat := by
    unfold pyIdx
    have : ¬ x < 0 := by omega
    simp only [this, if_false]
    rw [if_pos]
    omega
  have hgetrow : pyGet s.grid y = some row := by
    unfold pyGet
    rw [hpyy]
    simpa using hrow
  have hgetv : pyGet row x = some v := by
    unfold pyGet
    rw [hpyx]
    simpa using hv
  have hsetrow : ∀ w : Nat, pySet row x w = some (row.set x.toNat w) := by
    intro w
    unfold pySet
    rw [hpyx]
    rfl
  have hsetgrid : ∀ r : List Nat, pySet s.grid y r = some (s.grid.set y.toNat r) := by
    intro r
    unfold pySet
    rw [hpyy]
    rfl
  refine ⟨v, ?_, ?_, ?_⟩
  · unfold gridCell
    rw [hrow]
    simpa using hv
  · intro hv0
    constructor <;>
      · simp only [left_rotate_at, right_rotate_at, hgetrow, Option.bind_eq_bind,
          Option.some_bind, hgetv, hv0, if_pos rfl, ite_true]
        rfl
  · intro hv0
    have hcell : ∀ (w : Nat) i j,
        gridCell (s.grid.set y.toNat (row.set x.toNat w)) i j =
          if i = x.toNat ∧ j = y.toNat then some w else gridCell s.grid i j := by
      intro w i j
      have hrowE : s.grid[y.toNat]? = some row := by
        simpa [List.get?_eq_getElem?] using hrow
      unfold gridCell
      by_cases hj : j = y.toNat
      · subst hj
        rw [List.get?_set_eq_of_lt _ hylen]
        simp only [Option.some_bind]
        by_cases hi : i = x.toNat
        · subst hi
          rw [List.get?_set_eq_of_lt _ hxlen]
          simp [hrow, hv]
        · rw [List.get?_set_ne _ _ (by omega : x.toNat ≠ i)]
          simp [hi, hrowE]
      · rw [List.get?_set_ne _ _ (by omega : y.toNat ≠ j)]
        simp [hj]
    set sL : NetGameLogic :=
      { s with grid := s.grid.set y.toNat (row.set x.toNat (rotate_direction v)),
               user_move_count := s.user_move_count + 1 } with hsL
    set sR : NetGameLogic :=
      { s with grid := s.grid.set y.toNat (row.set x.toNat (rotate_direction_ccw v)),
               user_move_count := s.user_move_count + 1 } with hsR
    refine ⟨sL, sR, ?_, ?_, ?_, ?_, rfl, rfl, rfl, rfl, rfl, rfl, rfl, rfl, rfl, rfl⟩
    · simp only [left_rotate_at, hgetrow, Option.bind_eq_bind, Option.some_bind, hgetv,
        hv0, if_neg hv0, ite_false, hsetrow, hsetgrid]
      rfl
    · simp only [right_rotate_at, hgetrow, Option.bind_eq_bind, Option.some_bind, hgetv,
        hv0, if_neg hv0, ite_false, hsetrow, hsetgrid]
      rfl
    · intro i j
      exact hcell _ i j
    · intro i j
      exact hcell _ i j

/-- `clone_grid` of a grid with exactly `h` rows of `w` cells is the grid
itself (the deep copy is value-equal). -/
theorem clone_grid_eq_self {w h : Nat} {g : List (List Nat)}
    (hlen : g.length = h) (hrows : ∀ row ∈ g, row.length = w) :
    clone_grid w h g = g := by
  unfold clone_grid
  apply List.ext_getElem
  · simpa using hlen.symm
  · intro y hy1 hy2
    simp only [List.getElem_map, List.getElem_range]
    have hyg : y < g.length := by simpa [hlen] using hy2
    have hrow : g.getD y [] = g[y] := List.getD_eq_getElem g [] hyg
    apply List.ext_getElem
    · simp [hrow, hrows g[y] (List.getElem_mem hyg)]
    · intro x hx1 hx2
      simp only [List.getElem_map, List.getElem_range, hrow]
      exact List.getD_eq_getElem g[y] 0 hx2

/-- C8: with a (nonempty, well-formed) initial scrambled snapshot present,
`restart_game` overwrites the live grid with a copy of the snapshot and
zeroes the user move counter, leaving solution grid, tile classifications,
server position and the snapshot itself untouched; a second `restart_game`
yields the same live grid again. -/
theorem restart_game_spec (s : NetGameLogic) (snap : List (List Nat))
    (hsnap : s.initial_scrambled_grid = some snap) (hne : snap ≠ [])
    (hlen : snap.length = s.height) (hrows : ∀ row ∈ snap, row.length = s.width) :
    (restart_game s).grid = snap ∧
      (restart_game s).user_move_count = 0 ∧
      (restart_game s).solution = s.solution ∧
      (restart_game s).tile_types = s.tile_types ∧
      (restart_game s).server_pos = s.server_pos ∧
      (restart_game s).initial_scrambled_grid = s.initial_scrambled_grid ∧
      (restart_game s).width = s.width ∧ (restart_game s).height = s.height ∧
      (restart_game (restart_game s)).grid = (restart_game s).grid := by
  have hclone : clone_grid s.width s.height snap = snap := clone_grid_eq_self hlen hrows
  have hempty : snap.isEmpty = false := by
    cases snap with
    | nil => cases hne rfl
    | cons a l => rfl
  have hstep : ∀ s' : NetGameLogic, s'.initial_scrambled_grid = some snap →
      s'.width = s.width → s'.height = s.height →
      restart_game s' = { s' with
        user_move_count := 0
        solving_animation_running := false
        grid := snap
        scrambled_state_for_greedy := some snap
        greedy_solution_moves := []
        greedy_animation_index := 0
        greedy_step_count := 0 } := by
    intro s' h1 h2 h3
    unfold restart_game
    rw [h1]
    simp only [hempty, Bool.false_eq_true, if_false, h2, h3, hclone]
  have hA := hstep s hsnap rfl rfl
  refine ⟨by rw [hA], by rw [hA], by rw [hA], by rw [hA], by rw [hA],
    by rw [hA], by rw [hA], by rw [hA], ?_⟩
  set s2 := restart_game s with hs2
  have hw2 : s2.width = s.width := by rw [hA]
  have hh2 : s2.height = s.height := by rw [hA]
  have hi2 : s2.initial_scrambled_grid = some snap := by rw [hA]; exact hsnap
  have hB := hstep s2 hi2 hw2 hh2
  calc (restart_game s2).grid = snap := by rw [hB]
    _ = s2.grid := by rw [hA]

/-- Witness for C8 on the concrete 1×1 session. -/
theorem restart_game_spec_witness :
    sessionOneCell.initial_scrambled_grid = some [[1]] ∧ ([[1]] : List (List Nat)) ≠ [] ∧
      ([[1]] : List (List Nat)).length = sessionOneCell.height ∧
      (restart_game sessionOneCell).grid = [[1]] ∧
      (restart_game sessionOneCell).user_move_count = 0 ∧
      (restart_game (restart_game sessionOneCell)).grid = (restart_game sessionOneCell).grid := by
  have h := restart_game_spec sessionOneCell [[1]] (by decide) (by decide) (by decide)
    (by decide)
  exact ⟨by decide, by decide, by decide, h.1, h.2.1, h.2.2.2.2.2.2.2.2⟩

/-- C10: `solve_with_tree_dp` (and its wrapper `greedy_solve_full`) is a
pure query: the source method reads `self.width`, `self.height`,
`self.server_pos`, `self.solution` and the `start_grid` argument and
assigns no attribute and no element of `start_grid`, so the session state
after the call is the input state, field for field (and the Lean `start`
value is immutable). -/
theorem solve_with_tree_dp_pure (s : NetGameLogic) (start : List (List Nat)) :
    (NetGameLogic.solve_with_tree_dp s start).2 = s ∧
      (NetGameLogic.greedy_solve_full s start).2 = s ∧
      (NetGameLogic.solve_with_tree_dp s start).2.grid = s.grid ∧
      (NetGameLogic.solve_with_tree_dp s start).2.solution = s.solution ∧
      (NetGameLogic.solve_with_tree_dp s start).2.tile_types = s.tile_types ∧
      (NetGameLogic.solve_with_tree_dp s start).2.initial_scrambled_grid =
        s.initial_scrambled_grid ∧
      (NetGameLogic.solve_with_tree_dp s start).2.user_move_count = s.user_move_count :=
  ⟨rfl, rfl, rfl, rfl, rfl, rfl, rfl⟩

/-- Witness for C7 on the concrete 1×1 session at `(0, 0)`. -/
theorem rotate_at_in_bounds_spec_witness :
    sessionOneCell.grid.length = sessionOneCell.height ∧
      (∀ row ∈ sessionOneCell.grid, row.length = sessionOneCell.width) ∧
      (0 : Int) ≤ 0 ∧ (0 : Int) < (sessionOneCell.width : Int) ∧
      (0 : Int) < (sessionOneCell.height : Int) ∧
      ∃ v, gridCell sessionOneCell.grid 0 0 = some v := by
  have h := rotate_at_in_bounds_spec sessionOneCell 0 0 (by decide)
    (by decide) (by decide) (by decide) (by decide) (by decide)
  obtain ⟨v, hv, -⟩ := h
  exact ⟨by decide, by decide, by decide, by decide, by decide, v, hv⟩

/-- C5 counterexample: on the concrete 3×1 instance whose cell `(0,0)` has
starting mask 3 (population count 2) against solution mask 2 (population
count 1), `solve_with_tree_dp` does NOT fail or raise: it returns a normal
move list — four clockwise moves for the unfixable tile — and applying
that list leaves the tile at its (wrong) starting mask. -/
theorem solver_popcount_mismatch_counterexample :
    solve_with_tree_dp 3 1 (1, 0) solThreeByOne startThreeByOneBad =
        [((0 : Int), (0 : Int), "cw"), ((0 : Int), (0 : Int), "cw"),
          ((0 : Int), (0 : Int), "cw"), ((0 : Int), (0 : Int), "cw")] ∧
      applyMoves (solve_with_tree_dp 3 1 (1, 0) solThreeByOne startThreeByOneBad)
          startThreeByOneBad (0, 0) = 3 ∧
      solThreeByOne (0, 0) = 2 := by
  refine ⟨by decide, ?_, by decide⟩
  rw [(by decide : solve_with_tree_dp 3 1 (1, 0) solThreeByOne startThreeByOneBad =
    [((0 : Int), (0 : Int), "cw"), ((0 : Int), (0 : Int), "cw"),
      ((0 : Int), (0 : Int), "cw"), ((0 : Int), (0 : Int), "cw")])]
  decide

/-- C5 amended: a tile whose starting mask has a different population
count from its solution mask (so no rotation can ever match) is handled
silently, not fatally: `collect_moves` emits exactly four clockwise moves
for it (both rotation searches run to their cap of 4 and the tie breaks
clockwise), and those four moves leave the tile's mask unchanged. -/
theorem solver_popcount_mismatch_silent (start sol : Grid) (c : Cell)
    (h1 : start c < 16) (h2 : sol c < 16)
    (hpc : popcountMask (start c) ≠ popcountMask (sol c)) :
    movesForCell start sol c = List.replicate 4 (c.1, c.2, "cw") ∧
      applyMoves (List.replicate 4 (c.1, c.2, "cw")) start c = start c := by
  have key : ∀ a < 16, ∀ t < 16, popcountMask a ≠ popcountMask t →
      a ≠ t ∧ whileRot rotate_direction t a 0 = 4 ∧
        whileRot rotate_direction_ccw t a 0 = 4 := by decide
  obtain ⟨hne, hcw, hccw⟩ := key (start c) h1 (sol c) h2 hpc
  have hmoves : movesForCell start sol c = List.replicate 4 (c.1, c.2, "cw") := by
    unfold movesForCell
    rw [if_pos hne, hcw, hccw, if_pos (le_refl 4)]
  refine ⟨hmoves, ?_⟩
  have hrot4 : ∀ a < 16, rotate_direction (rotate_direction (rotate_direction
      (rotate_direction a))) = a := by decide
  have hcell : ((c.1, c.2) : Cell) = c := rfl
  simp only [applyMoves, List.replicate, List.foldl_cons, List.foldl_nil, applyMove,
    hcell, if_pos rfl, gupd, ite_true]
  exact hrot4 (start c) h1

/-- Witness for the amended C5 statement at start mask 3 vs target mask 2. -/
theorem solver_popcount_mismatch_silent_witness :
    startThreeByOneBad (0, 0) < 16 ∧ solThreeByOne (0, 0) < 16 ∧
      popcountMask (startThreeByOneBad (0, 0)) ≠ popcountMask (solThreeByOne (0, 0)) ∧
      movesForCell startThreeByOneBad solThreeByOne (0, 0) =
        List.replicate 4 ((0 : Int), (0 : Int), "cw") :=
  ⟨by decide, by decide, by decide,
    (solver_popcount_mismatch_silent startThreeByOneBad solThreeByOne (0, 0)
      (by decide) (by decide) (by decide)).1⟩

theorem mem_cellsFinset {w h : Nat} {c : Cell} :
    c ∈ cellsFinset w h ↔ inBounds w h c := by
  unfold cellsFinset inBounds
  simp [Finset.mem_product, Finset.mem_Ico, and_assoc]

theorem card_cellsFinset (w h : Nat) : (cellsFinset w h).card = w * h := by
  unfold cellsFinset
  rw [Finset.card_product]
  simp [Int.card_Ico]

theorem mutualStep_inBounds {w h : Nat} {g : Grid} {a b : Cell}
    (hs : mutualStep w h g a b) : inBounds w h b := by
  obtain ⟨dx, dy, d, o, _, _, hb, _, _⟩ := hs
  exact hb

/-- Everything the single-cell direction fold of `get_connected_cells`
does to the `(connected, stack)` accumulator. -/
theorem connectivity_fold_spec (w h : Nat) (g : Grid) (c : Cell) :
    ∀ (L : List (Int × Int × Nat × Nat)) (con : Finset Cell) (st : List Cell),
      (∀ e ∈ L, e ∈ directionsList) →
      con ⊆ (L.foldl (connectivity_fold w h g c (g c)) (con, st)).1 ∧
        (∀ x ∈ st, x ∈ (L.foldl (connectivity_fold w h g c (g c)) (con, st)).2) ∧
        ((∀ x ∈ st, x ∈ con) →
          ∀ x ∈ (L.foldl (connectivity_fold w h g c (g c)) (con, st)).2,
            x ∈ (L.foldl (connectivity_fold w h g c (g c)) (con, st)).1) ∧
        (∀ b ∈ (L.foldl (connectivity_fold w h g c (g c)) (con, st)).1,
          b ∈ con ∨ mutualStep w h g c b) ∧
        (∀ e ∈ L, ∀ b : Cell, b = (c.1 + e.1, c.2 + e.2.1) → inBounds w h b →
          g c &&& e.2.2.1 ≠ 0 → g b &&& e.2.2.2 ≠ 0 →
          b ∈ (L.foldl (connectivity_fold w h g c (g c)) (con, st)).1) ∧
        (∀ b ∈ (L.foldl (connectivity_fold w h g c (g c)) (con, st)).1,
          b ∈ con ∨ b ∈ (L.foldl (connectivity_fold w h g c (g c)) (con, st)).2) ∧
        (∃ k, (L.foldl (connectivity_fold w h g c (g c)) (con, st)).1.card = con.card + k ∧
          (L.foldl (connectivity_fold w h g c (g c)) (con, st)).2.length = st.length + k) := by
  intro L
  induction L with
  | nil =>
    intro con st _
    refine ⟨Finset.Subset.refl _, fun x hx => hx, fun hsub x hx => hsub x hx,
      fun b hb => Or.inl hb, fun e he => absurd he (List.not_mem_nil e),
      fun b hb => Or.inl hb, 0, rfl, rfl⟩
  | cons e L ih =>
    intro con st hL
    obtain ⟨dx, dy, d, o⟩ := e
    have hLsub : ∀ e' ∈ L, e' ∈ directionsList := fun e' he' => hL e' (List.mem_cons_of_mem _ he')
    have hehead : ((dx, dy, d, o) : Int × Int × Nat × Nat) ∈ directionsList :=
      hL _ (List.mem_cons_self _ _)
    simp only [List.foldl_cons]
    by_cases hd : g c &&& d ≠ 0
    · by_cases hcond : inBounds w h (c.1 + dx, c.2 + dy) ∧ (c.1 + dx, c.2 + dy) ∉ con ∧
          g (c.1 + dx, c.2 + dy) &&& o ≠ 0
      · have hacc : connectivity_fold w h g c (g c) (con, st) (dx, dy, d, o) =
            (insert (c.1 + dx, c.2 + dy) con, (c.1 + dx, c.2 + dy) :: st) := by
          unfold connectivity_fold
          simp only [if_pos hd, if_pos hcond]
        rw [hacc]
        obtain ⟨ih1, ih2, ih3, ih4, ih5, ih6, k, ihk1, ihk2⟩ :=
          ih (insert (c.1 + dx, c.2 + dy) con) ((c.1 + dx, c.2 + dy) :: st) hLsub
        have hstepn : mutualStep w h g c (c.1 + dx, c.2 + dy) :=
          ⟨dx, dy, d, o, hehead, rfl, hcond.1, hd, hcond.2.2⟩
        refine ⟨fun x hx => ih1 (Finset.mem_insert_of_mem hx), fun x hx =>
          ih2 x (List.mem_cons_of_mem _ hx), ?_, ?_, ?_, ?_, k + 1, ?_, ?_⟩
        · intro hsub x hx
          refine ih3 ?_ x hx
          intro y hy
          rcases List.mem_cons.mp hy with hy | hy
          · exact hy ▸ Finset.mem_insert_self _ _
          · exact Finset.mem_insert_of_mem (hsub y hy)
        · intro b hb
          rcases ih4 b hb with hb' | hb'
          · rcases Finset.mem_insert.mp hb' with hb'' | hb''
            · exact Or.inr (hb'' ▸ hstepn)
            · exact Or.inl hb''
          · exact Or.inr hb'
        · intro e' he' b hb hbin hbd hbo
          rcases List.mem_cons.mp he' with he'' | he''
          · subst he''
            exact ih1 (by rw [hb]; exact Finset.mem_insert_self _ _)
          · exact ih5 e' he'' b hb hbin hbd hbo
        · intro b hb
          rcases ih6 b hb with hbc | hbs
          · rcases Finset.mem_insert.mp hbc with hb'' | hb''
            · exact Or.inr (hb'' ▸ ih2 _ (List.mem_cons_self _ _))
            · exact Or.inl hb''
          · exact Or.inr hbs
        · rw [ihk1, Finset.card_insert_of_not_mem hcond.2.1]
          omega
        · rw [ihk2]
          simp
          omega
      · have hacc : connectivity_fold w h g c (g c) (con, st) (dx, dy, d, o) = (con, st) := by
          unfold connectivity_fold
          simp only [if_pos hd, if_neg hcond]
        rw [hacc]
        obtain ⟨ih1, ih2, ih3, ih4, ih5, ih6, k, ihk1, ihk2⟩ := ih con st hLsub
        refine ⟨ih1, ih2, ih3, ih4, ?_, ih6, k, ihk1, ihk2⟩
        intro e' he' b hb hbin hbd hbo
        rcases List.mem_cons.mp he' with he'' | he''
        · subst he''
          have hbn : b = (c.1 + dx, c.2 + dy) := hb
          have hmem : (c.1 + dx, c.2 + dy) ∈ con := by
            by_contra hmem
            exact hcond ⟨hbn ▸ hbin, hmem, hbn ▸ hbo⟩
          exact ih1 (hbn ▸ hmem)
        · exact ih5 e' he'' b hb hbin hbd hbo
    · have hacc : connectivity_fold w h g c (g c) (con, st) (dx, dy, d, o) = (con, st) := by
        unfold connectivity_fold
        simp only [if_neg hd]
      rw [hacc]
      obtain ⟨ih1, ih2, ih3, ih4, ih5, ih6, k, ihk1, ihk2⟩ := ih con st hLsub
      refine ⟨ih1, ih2, ih3, ih4, ?_, ih6, k, ihk1, ihk2⟩
      intro e' he' b hb hbin hbd hbo
      rcases List.mem_cons.mp he' with he'' | he''
      · subst he''
        exact absurd hbd hd
      · exact ih5 e' he'' b hb hbin hbd hbo

/-- Invariant preservation and fuel adequacy for the `get_connected_cells`
DFS loop: starting from a state whose `connected` set is reachable, covers
the stack, and is edge-closed off the stack, with enough fuel the result
contains the start set, is still reachable-only, and is edge-closed. -/
theorem connectivity_loop_spec (w h : Nat) (g : Grid) (server : Cell) :
    ∀ (fuel : Nat) (con : Finset Cell) (st : List Cell),
      (∀ x ∈ st, x ∈ con) →
      (∀ x ∈ con, mutualReach w h g server x) →
      server ∈ con →
      (∀ x ∈ con, x = server ∨ x ∈ cellsFinset w h) →
      (∀ x ∈ con, x ∈ st ∨ ∀ b, mutualStep w h g x b → b ∈ con) →
      2 * ((w * h + 1) - con.card) + st.length ≤ fuel →
      con ⊆ connectivity_loop w h g fuel con st ∧
        (∀ x ∈ connectivity_loop w h g fuel con st, mutualReach w h g server x) ∧
        (∀ x ∈ connectivity_loop w h g fuel con st, ∀ b, mutualStep w h g x b →
          b ∈ connectivity_loop w h g fuel con st) := by
  intro fuel
  induction fuel with
  | zero =>
    intro con st hstack hreach hserver hbound hclosed hfuel
    have hst : st = [] := List.length_eq_zero.mp (by omega)
    refine ⟨Finset.Subset.refl _, hreach, ?_⟩
    intro x hx b hb
    rcases hclosed x hx with hx' | hx'
    · rw [hst] at hx'
      exact absurd hx' (List.not_mem_nil x)
    · exact hx' b hb
  | succ fuel ihfuel =>
    intro con st hstack hreach hserver hbound hclosed hfuel
    match st with
    | [] =>
      refine ⟨Finset.Subset.refl _, hreach, ?_⟩
      intro x hx b hb
      rcases hclosed x hx with hx' | hx'
      · exact absurd hx' (List.not_mem_nil x)
      · exact hx' b hb
    | c :: rest =>
      have hcon : c ∈ con := hstack c (List.mem_cons_self _ _)
      have hstep : connectivity_loop w h g (fuel + 1) con (c :: rest) =
          connectivity_loop w h g fuel
            (directionsList.foldl (connectivity_fold w h g c (g c)) (con, rest)).1
            (directionsList.foldl (connectivity_fold w h g c (g c)) (con, rest)).2 := rfl
      obtain ⟨f1, f2, f3, f4, f5, f6, k, fk1, fk2⟩ :=
        connectivity_fold_spec w h g c directionsList con rest (fun e he => he)
      set F := directionsList.foldl (connectivity_fold w h g c (g c)) (con, rest) with hF
      have hstack' : ∀ x ∈ F.2, x ∈ F.1 :=
        f3 (fun x hx => hstack x (List.mem_cons_of_mem _ hx))
      have hreach' : ∀ x ∈ F.1, mutualReach w h g server x := by
        intro x hx
        rcases f4 x hx with hx' | hx'
        · exact hreach x hx'
        · exact Relation.ReflTransGen.tail (hreach c hcon) hx'
      have hserver' : server ∈ F.1 := f1 hserver
      have hbound' : ∀ x ∈ F.1, x = server ∨ x ∈ cellsFinset w h := by
        intro x hx
        rcases f4 x hx with hx' | hx'
        · exact hbound x hx'
        · exact Or.inr (mem_cellsFinset.mpr (mutualStep_inBounds hx'))
      have hclosed' : ∀ x ∈ F.1, x ∈ F.2 ∨ ∀ b, mutualStep w h g x b → b ∈ F.1 := by
        intro x hx
        rcases f6 x hx with hx' | hx'
        · rcases hclosed x hx' with hx'' | hx''
          · rcases List.mem_cons.mp hx'' with hc | hc
            · subst hc
              refine Or.inr ?_
              intro b hb
              obtain ⟨dx, dy, d, o, he, hb1, hb2, hb3, hb4⟩ := hb
              exact f5 (dx, dy, d, o) he b hb1 hb2 hb3 hb4
            · exact Or.inl (f2 x hc)
          · exact Or.inr fun b hb => f1 (hx'' b hb)
        · exact Or.inl hx'
      have hcardle : F.1.card ≤ w * h + 1 := by
        have hsub : F.1 ⊆ insert server (cellsFinset w h) := by
          intro x hx
          rcases hbound' x hx with hx' | hx'
          · exact hx' ▸ Finset.mem_insert_self _ _
          · exact Finset.mem_insert_of_mem hx'
        calc F.1.card ≤ (insert server (cellsFinset w h)).card := Finset.card_le_card hsub
          _ ≤ (cellsFinset w h).card + 1 := Finset.card_insert_le _ _
          _ = w * h + 1 := by rw [card_cellsFinset]
      have hfuel' : 2 * ((w * h + 1) - F.1.card) + F.2.length ≤ fuel := by
        have hlen : (c :: rest).length = rest.length + 1 := rfl
        omega
      obtain ⟨r1, r2, r3⟩ := ihfuel F.1 F.2 hstack' hreach' hserver' hbound' hclosed' hfuel'
      rw [hstep]
      exact ⟨Finset.Subset.trans (fun x hx => f1 hx) r1, r2, r3⟩

/-- C4: `get_connected_cells` returns exactly the set of cells reachable
from the server through mutually matching edges; it always contains the
server, and collapses to `{server}` when the server's mask is empty or no
in-bounds neighbour reciprocates. -/
theorem get_connected_cells_spec (w h : Nat) (server : Cell) (g : Grid) :
    (∀ c, c ∈ get_connected_cells w h server g ↔ mutualReach w h g server c) ∧
      server ∈ get_connected_cells w h server g ∧
      ((g server = 0 ∨ ∀ b, ¬ mutualStep w h g server b) →
        get_connected_cells w h server g = {server}) := by
  have hloop := connectivity_loop_spec w h g server (2 * (w * h) + 3) {server} [server]
    (by intro x hx; simpa using List.mem_singleton.mp hx)
    (by intro x hx; rw [Finset.mem_singleton] at hx; exact hx ▸ Relation.ReflTransGen.refl)
    (Finset.mem_singleton_self server)
    (by intro x hx; exact Or.inl (Finset.mem_singleton.mp hx))
    (by intro x hx; exact Or.inl (by simpa using Finset.mem_singleton.mp hx))
    (by simp only [Finset.card_singleton, List.length_singleton]; omega)
  obtain ⟨hsub, hreach, hclosed⟩ := hloop
  have hserver : server ∈ get_connected_cells w h server g :=
    hsub (Finset.mem_singleton_self server)
  have hiff : ∀ c, c ∈ get_connected_cells w h server g ↔ mutualReach w h g server c := by
    intro c
    constructor
    · exact hreach c
    · intro hr
      induction hr with
      | refl => exact hserver
      | tail _ hstep ih => exact hclosed _ ih _ hstep
  refine ⟨hiff, hserver, ?_⟩
  intro hdead
  apply Finset.ext
  intro c
  rw [Finset.mem_singleton, hiff c]
  constructor
  · intro hr
    rcases Relation.ReflTransGen.cases_head hr with hc | ⟨b, hb, _⟩
    · exact hc.symm
    · rcases hdead with hdead | hdead
      · obtain ⟨dx, dy, d, o, _, _, _, hbit, _⟩ := hb
        rw [hdead] at hbit
        simp at hbit
      · exact absurd hb (hdead b)
  · intro hc
    exact hc ▸ Relation.ReflTransGen.refl

/-- Witness for C4: on the all-blank 1×1 grid the connectivity set is the
singleton containing the server. -/
theorem get_connected_cells_spec_witness :
    get_connected_cells 1 1 (0, 0) (fun _ => 0) = {(0, 0)} :=
  (get_connected_cells_spec 1 1 (0, 0) (fun _ => 0)).2.2 (Or.inl rfl)

/-! ### Direction-table and 4-bit mask facts (finite, by `decide`) -/

theorem dirbit_mem {e : Int × Int × Nat × Nat} (he : e ∈ directionsList) :
    e.2.2.1 ∈ [UP, RIGHT, DOWN, LEFT] ∧ e.2.2.2 ∈ [UP, RIGHT, DOWN, LEFT] := by
  fin_cases he <;> decide

theorem dirbit_lt {d : Nat} (hd : d ∈ [UP, RIGHT, DOWN, LEFT]) : 0 < d ∧ d < 16 := by
  fin_cases hd <;> decide

theorem mask_or_lt {m d : Nat} (hm : m < 16) (hd : d < 16) : m ||| d < 16 := by
  have : ∀ a < 16, ∀ b < 16, a ||| b < 16 := by decide
  exact this m hm d hd

theorem mask_or_dirbit_ne {m d : Nat} (hm : m < 16) (hd : d ∈ [UP, RIGHT, DOWN, LEFT]) :
    (m ||| d) &&& d ≠ 0 ∧ m ||| d ≠ 0 := by
  have key : ∀ m < 16, ∀ d ∈ [UP, RIGHT, DOWN, LEFT],
      (m ||| d) &&& d ≠ 0 ∧ m ||| d ≠ 0 := by decide
  exact key m hm d hd

theorem mask_or_and_iff {m d x : Nat} (hm : m < 16)
    (hd : d ∈ [UP, RIGHT, DOWN, LEFT]) (hx : x ∈ [UP, RIGHT, DOWN, LEFT]) :
    (m ||| d) &&& x ≠ 0 ↔ (m &&& x ≠ 0 ∨ x = d) := by
  have key : ∀ m < 16, ∀ d ∈ [UP, RIGHT, DOWN, LEFT], ∀ x ∈ [UP, RIGHT, DOWN, LEFT],
      ((m ||| d) &&& x ≠ 0 ↔ (m &&& x ≠ 0 ∨ x = d)) := by decide
  exact key m hm d hd x hx

theorem dirbit_and_iff {d x : Nat} (hd : d ∈ [UP, RIGHT, DOWN, LEFT])
    (hx : x ∈ [UP, RIGHT, DOWN, LEFT]) : d &&& x ≠ 0 ↔ x = d := by
  fin_cases hd <;> fin_cases hx <;> decide

theorem popcount_or_fresh {m d : Nat} (hm : m < 16)
    (hd : d ∈ [UP, RIGHT, DOWN, LEFT]) (hfresh : m &&& d = 0) :
    popcountMask (m ||| d) = popcountMask m + 1 := by
  have key : ∀ m < 16, ∀ d ∈ [UP, RIGHT, DOWN, LEFT], m &&& d = 0 →
      popcountMask (m ||| d) = popcountMask m + 1 := by decide
  exact key m hm d hd hfresh

theorem offCell_ne {c : Cell} {e : Int × Int × Nat × Nat}
    (he : e ∈ directionsList) : offCell c e ≠ c := by
  fin_cases he <;>
    · intro hcontra
      rw [Prod.ext_iff] at hcontra
      simp only [offCell] at hcontra
      omega

/-- Each direction-table entry has a reverse entry: opposite offset,
swapped direction bits. -/
theorem rev_entry {e : Int × Int × Nat × Nat} (he : e ∈ directionsList) :
    ∃ f ∈ directionsList, f.1 = -e.1 ∧ f.2.1 = -e.2.1 ∧
      f.2.2.1 = e.2.2.2 ∧ f.2.2.2 = e.2.2.1 := by
  fin_cases he <;> decide

/-- An entry of the direction table is determined by its direction bit. -/
theorem entry_unique_d {e f : Int × Int × Nat × Nat}
    (he : e ∈ directionsList) (hf : f ∈ directionsList)
    (hd : f.2.2.1 = e.2.2.1) : f = e := by
  fin_cases he <;> fin_cases hf <;> revert hd <;> decide

/-- An entry of the direction table is determined by its opposite bit. -/
theorem entry_unique_o {e f : Int × Int × Nat × Nat}
    (he : e ∈ directionsList) (hf : f ∈ directionsList)
    (ho : f.2.2.2 = e.2.2.2) : f = e := by
  fin_cases he <;> fin_cases hf <;> revert ho <;> decide

theorem offCell_cancel {p a : Cell} {e f : Int × Int × Nat × Nat}
    (he : e ∈ directionsList) (hf : f ∈ directionsList) (hfe : f = e)
    (h : offCell p e = offCell a f) : p = a := by
  subst hfe
  unfold offCell at h
  rw [Prod.ext_iff] at h ⊢
  simp only at h ⊢
  omega

/-! ### `connectCell` and edge-structure lemmas -/
theorem connectCell_at_fst {g : Grid} {a n : Cell} {d o : Nat} (hne : n ≠ a) :
    connectCell g a n d o a = g a ||| d := by
  unfold connectCell gupd
  simp [Ne.symm hne]

theorem connectCell_at_snd {g : Grid} {a n : Cell} {d o : Nat} (hne : n ≠ a) :
    connectCell g a n d o n = g n ||| o := by
  unfold connectCell gupd
  simp [hne]

theorem connectCell_at_other {g : Grid} {a n c : Cell} {d o : Nat}
    (hca : c ≠ a) (hcn : c ≠ n) :
    connectCell g a n d o c = g c := by
  unfold connectCell gupd
  simp [hca, hcn]

theorem connectCell_grows {g : Grid} {a n : Cell} {d o : Nat} (hne : n ≠ a)
    (hm : ∀ c, g c < 16) (hd : d ∈ [UP, RIGHT, DOWN, LEFT])
    (ho : o ∈ [UP, RIGHT, DOWN, LEFT]) :
    maskGrows g (connectCell g a n d o) := by
  intro c x hx hbit
  by_cases hcn : c = n
  · subst hcn
    rw [connectCell_at_snd hne]
    exact (mask_or_and_iff (hm c) ho hx).mpr (Or.inl hbit)
  · by_cases hca : c = a
    · subst hca
      rw [connectCell_at_fst hne]
      exact (mask_or_and_iff (hm c) hd hx).mpr (Or.inl hbit)
    · rw [connectCell_at_other hca hcn]
      exact hbit

theorem connectCell_lt {g : Grid} {a n : Cell} {d o : Nat}
    (hm : ∀ c, g c < 16) (hd : d < 16) (ho : o < 16) :
    ∀ c, connectCell g a n d o c < 16 := by
  intro c
  unfold connectCell gupd
  by_cases h1 : c = n
  · simp only [if_pos h1]
    by_cases h2 : n = a
    · simp only [if_pos h2]
      exact mask_or_lt (mask_or_lt (hm a) hd) ho
    · simp only [if_neg h2]
      exact mask_or_lt (hm n) ho
  · simp only [if_neg h1]
    by_cases h2 : c = a
    · simp only [if_pos h2]
      exact mask_or_lt (hm a) hd
    · simp only [if_neg h2]
      exact hm c

theorem mutualStep_mono {w h : Nat} {g g' : Grid} (hg : maskGrows g g')
    {a b : Cell} (hs : mutualStep w h g a b) : mutualStep w h g' a b := by
  obtain ⟨dx, dy, d, o, he, hb, hbin, hda, hob⟩ := hs
  have hd := (dirbit_mem he).1
  have ho := (dirbit_mem he).2
  exact ⟨dx, dy, d, o, he, hb, hbin, hg a d hd hda, hg b o ho hob⟩

theorem mutualReach_mono {w h : Nat} {g g' : Grid} (hg : maskGrows g g')
    {a b : Cell} (hr : mutualReach w h g a b) : mutualReach w h g' a b :=
  Relation.ReflTransGen.mono (fun _ _ hs => mutualStep_mono hg hs) hr

theorem cell_eq_iff {p q : Cell} : p = q ↔ p.1 = q.1 ∧ p.2 = q.2 := Prod.ext_iff

/-- Decomposition of the mutually matching edges after one connection
step: every edge of the new grid is an old edge or (an orientation of)
the freshly added edge, provided the target cell was blank. -/
theorem connectCell_edges {w h : Nat} {g : Grid} {a n : Cell}
    {dx dy : Int} {d o : Nat}
    (he : (dx, dy, d, o) ∈ directionsList) (hn : n = offCell a (dx, dy, d, o))
    (hm : ∀ c, g c < 16) (hGn : g n = 0)
    (hsym : ∀ p, ∀ e ∈ directionsList, g p &&& e.2.2.1 ≠ 0 →
      inBounds w h (offCell p e) ∧ g (offCell p e) &&& e.2.2.2 ≠ 0)
    {p q : Cell} (hpq : mutualStep w h (connectCell g a n d o) p q) :
    mutualStep w h g p q ∨ (p = a ∧ q = n) ∨ (p = n ∧ q = a) := by
  have hne : n ≠ a := hn ▸ offCell_ne he
  have hd : d ∈ [UP, RIGHT, DOWN, LEFT] := (dirbit_mem he).1
  have ho : o ∈ [UP, RIGHT, DOWN, LEFT] := (dirbit_mem he).2
  have hncomp : n.1 = a.1 + dx ∧ n.2 = a.2 + dy := by
    rw [hn]
    exact ⟨rfl, rfl⟩
  obtain ⟨fx, fy, fd, fo, hf, hq, hqin, hpd, hqo⟩ := hpq
  have hfd : fd ∈ [UP, RIGHT, DOWN, LEFT] := (dirbit_mem hf).1
  have hfo : fo ∈ [UP, RIGHT, DOWN, LEFT] := (dirbit_mem hf).2
  have hqcomp : q.1 = p.1 + fx ∧ q.2 = p.2 + fy := by
    rw [hq]
    exact ⟨rfl, rfl⟩
  by_cases hpn : p = n
  · -- the source is the fresh cell: its only bit is `o`, so the edge is
    -- the reverse orientation of the new edge
    rw [hpn, connectCell_at_snd hne, hGn, Nat.zero_or] at hpd
    have hfdo : fd = o := (dirbit_and_iff ho hfd).mp hpd
    obtain ⟨f', hf', h1, h2, h3, h4⟩ := rev_entry he
    have hff' : (fx, fy, fd, fo) = f' :=
      entry_unique_d hf' hf (by rw [h3]; exact hfdo)
    have hfx : fx = -dx := by
      rw [show fx = ((fx, fy, fd, fo) : Int × Int × Nat × Nat).1 from rfl, hff', h1]
    have hfy : fy = -dy := by
      rw [show fy = ((fx, fy, fd, fo) : Int × Int × Nat × Nat).2.1 from rfl, hff', h2]
    refine Or.inr (Or.inr ⟨hpn, ?_⟩)
    apply cell_eq_iff.mpr
    have hp1 : p.1 = n.1 := by rw [hpn]
    have hp2 : p.2 = n.2 := by rw [hpn]
    constructor <;> omega
  · by_cases hpa : p = a
    · -- the source is the connecting cell
      have hpd2 : (g a ||| d) &&& fd ≠ 0 := by
        rw [hpa, connectCell_at_fst hne] at hpd
        exact hpd
      rcases (mask_or_and_iff (hm a) hd hfd).mp hpd2 with hold | hfdd
      · -- `p`'s bit toward `q` is an old bit
        by_cases hqn : q = n
        · -- but the target is the fresh cell: its only bit is `o`, so the
          -- traversed entry must be the new one, and the old symmetric
          -- invariant would force the fresh cell non-blank — contradiction
          rw [hqn, connectCell_at_snd hne, hGn, Nat.zero_or] at hqo
          have hfoo : fo = o := (dirbit_and_iff ho hfo).mp hqo
          have hfe : ((fx, fy, fd, fo) : Int × Int × Nat × Nat) = (dx, dy, d, o) :=
            entry_unique_o he hf hfoo
          have hfdd : fd = d := by
            rw [show fd = ((fx, fy, fd, fo) : Int × Int × Nat × Nat).2.2.1 from rfl, hfe]
          rw [hfdd] at hold
          have hcontra := (hsym a (dx, dy, d, o) he hold).2
          rw [← hn, hGn] at hcontra
          simp at hcontra
        · by_cases hqa : q = a
          · rw [hqa, hpa] at hq
            exact absurd hq.symm (offCell_ne hf)
          · rw [connectCell_at_other hqa hqn] at hqo
            refine Or.inl ⟨fx, fy, fd, fo, hf, hq, hqin, ?_, hqo⟩
            rw [hpa]
            exact hold
      · -- the traversed bit is the fresh bit `d`: this is the new edge
        have hfe : ((fx, fy, fd, fo) : Int × Int × Nat × Nat) = (dx, dy, d, o) :=
          entry_unique_d he hf hfdd
        have hfx : fx = dx := by
          rw [show fx = ((fx, fy, fd, fo) : Int × Int × Nat × Nat).1 from rfl, hfe]
        have hfy : fy = dy := by
          rw [show fy = ((fx, fy, fd, fo) : Int × Int × Nat × Nat).2.1 from rfl, hfe]
        refine Or.inr (Or.inl ⟨hpa, ?_⟩)
        apply cell_eq_iff.mpr
        have hp1 : p.1 = a.1 := by rw [hpa]
        have hp2 : p.2 = a.2 := by rw [hpa]
        constructor <;> omega
    · -- the source is any other cell: its mask is unchanged
      rw [connectCell_at_other hpa hpn] at hpd
      by_cases hqn : q = n
      · -- target is the fresh cell: entry must be the new one, forcing
        -- the source to be the connecting cell — contradiction
        rw [hqn, connectCell_at_snd hne, hGn, Nat.zero_or] at hqo
        have hfoo : fo = o := (dirbit_and_iff ho hfo).mp hqo
        have hfe : ((fx, fy, fd, fo) : Int × Int × Nat × Nat) = (dx, dy, d, o) :=
          entry_unique_o he hf hfoo
        have hfx : fx = dx := by
          rw [show fx = ((fx, fy, fd, fo) : Int × Int × Nat × Nat).1 from rfl, hfe]
        have hfy : fy = dy := by
          rw [show fy = ((fx, fy, fd, fo) : Int × Int × Nat × Nat).2.1 from rfl, hfe]
        have hq1 : q.1 = n.1 := by rw [hqn]
        have hq2 : q.2 = n.2 := by rw [hqn]
        have hpa' : p = a := by
          apply cell_eq_iff.mpr
          constructor <;> omega
        exact absurd hpa' hpa
      · by_cases hqa : q = a
        · rw [hqa, connectCell_at_fst hne] at hqo
          rcases (mask_or_and_iff (hm a) hd hfo).mp hqo with hold | hfod
          · exact Or.inl ⟨fx, fy, fd, fo, hf, hq, hqin, hpd, hqa ▸ hold⟩
          · -- the target bit is the fresh `d` bit: the entry is then the
            -- reverse of the new one, forcing the source to be the fresh
            -- cell — contradiction
            obtain ⟨f', hf', h1, h2, h3, h4⟩ := rev_entry he
            have hff' : ((fx, fy, fd, fo) : Int × Int × Nat × Nat) = f' :=
              entry_unique_o hf' hf (by rw [h4]; exact hfod)
            have hfx : fx = -dx := by
              rw [show fx = ((fx, fy, fd, fo) : Int × Int × Nat × Nat).1 from rfl, hff', h1]
            have hfy : fy = -dy := by
              rw [show fy = ((fx, fy, fd, fo) : Int × Int × Nat × Nat).2.1 from rfl, hff', h2]
            have hq1 : q.1 = a.1 := by rw [hqa]
            have hq2 : q.2 = a.2 := by rw [hqa]
            have hpn' : p = n := by
              apply cell_eq_iff.mpr
              constructor <;> omega
            exact absurd hpn' hpn
        · rw [connectCell_at_other hqa hqn] at hqo
          exact Or.inl ⟨fx, fy, fd, fo, hf, hq, hqin, hpd, hqo⟩
theorem sumPop_connect {w h : Nat} {g : Grid} {a n : Cell} {d o : Nat}
    (hac : a ∈ cellsFinset w h) (hnc : n ∈ cellsFinset w h) (hne : n ≠ a)
    (hGn : g n = 0) (hfresh : g a &&& d = 0) (hm : ∀ c, g c < 16)
    (hd : d ∈ [UP, RIGHT, DOWN, LEFT]) (ho : o ∈ [UP, RIGHT, DOWN, LEFT]) :
    sumPop w h (connectCell g a n d o) = sumPop w h g + 2 := by
  unfold sumPop
  have hpop_a : popcountMask (connectCell g a n d o a) = popcountMask (g a) + 1 := by
    rw [connectCell_at_fst hne]
    exact popcount_or_fresh (hm a) hd hfresh
  have hpop_n : popcountMask (connectCell g a n d o n) = popcountMask (g n) + 1 := by
    rw [connectCell_at_snd hne, hGn, Nat.zero_or]
    have h1 : popcountMask o = 1 := by fin_cases ho <;> decide
    have h0 : popcountMask 0 = 0 := rfl
    rw [h1, h0]
  have hna : n ∈ (cellsFinset w h).erase a := Finset.mem_erase.mpr ⟨hne, hnc⟩
  rw [← Finset.sum_erase_add _ _ hac, ← Finset.sum_erase_add _ _ hac,
    ← Finset.sum_erase_add _ _ hna, ← Finset.sum_erase_add _ _ hna]
  have hcongr : ∀ c ∈ ((cellsFinset w h).erase a).erase n,
      popcountMask (connectCell g a n d o c) = popcountMask (g c) := by
    intro c hc
    have hcn : c ≠ n := (Finset.mem_erase.mp hc).1
    have hca : c ≠ a := (Finset.mem_erase.mp (Finset.mem_erase.mp hc).2).1
    rw [connectCell_at_other hca hcn]
  rw [Finset.sum_congr rfl hcongr, hpop_a, hpop_n]
  omega

/-- One connection step (from a visited cell `a` to an in-bounds,
unvisited cell `n`, pushing `n`) preserves the generation invariant. -/
theorem connect_step_inv {w h : Nat} {server : Cell} {s : GenState}
    (inv : GenInv w h server s) {a : Cell} (ha : a ∈ s.visited)
    {dx dy : Int} {d o : Nat} (he : (dx, dy, d, o) ∈ directionsList)
    {n : Cell} (hn : n = offCell a (dx, dy, d, o))
    (hnin : inBounds w h n) (hnvis : n ∉ s.visited) :
    GenInv w h server
      { grid := connectCell s.grid a n d o
        visited := insert n s.visited
        stack := n :: s.stack } := by
  have hne : n ≠ a := hn ▸ offCell_ne he
  have hd : d ∈ [UP, RIGHT, DOWN, LEFT] := (dirbit_mem he).1
  have ho : o ∈ [UP, RIGHT, DOWN, LEFT] := (dirbit_mem he).2
  have hGn : s.grid n = 0 := inv.blank_unvisited n hnvis
  have hnsrv : n ≠ server := fun hc => hnvis (hc ▸ inv.server_mem)
  have hgrows : maskGrows s.grid (connectCell s.grid a n d o) :=
    connectCell_grows hne inv.mask_lt hd ho
  have hfresh : s.grid a &&& d = 0 := by
    by_contra hbit
    have hcontra := (inv.sym a (dx, dy, d, o) he hbit).2
    rw [← hn, hGn] at hcontra
    simp at hcontra
  have hncomp : n.1 = a.1 + dx ∧ n.2 = a.2 + dy := by
    rw [hn]
    exact ⟨rfl, rfl⟩
  have hstep_an : mutualStep w h (connectCell s.grid a n d o) a n := by
    refine ⟨dx, dy, d, o, he, ?_, hnin, ?_, ?_⟩
    · exact hn
    · rw [connectCell_at_fst hne]
      exact (mask_or_dirbit_ne (inv.mask_lt a) hd).1
    · rw [connectCell_at_snd hne]
      exact (mask_or_dirbit_ne (inv.mask_lt n) ho).1
  obtain ⟨f', hf', hr1, hr2, hr3, hr4⟩ := rev_entry he
  obtain ⟨f'x, f'y, f'd, f'o⟩ := f'
  simp only at hr1 hr2 hr3 hr4
  have hstep_na : mutualStep w h (connectCell s.grid a n d o) n a := by
    refine ⟨f'x, f'y, f'd, f'o, hf', ?_, inv.visited_inb a ha, ?_, ?_⟩
    · apply cell_eq_iff.mpr
      constructor <;> simp only <;> omega
    · rw [connectCell_at_snd hne, hr3]
      exact (mask_or_dirbit_ne (inv.mask_lt n) ho).1
    · rw [connectCell_at_fst hne, hr4]
      exact (mask_or_dirbit_ne (inv.mask_lt a) hd).1
  constructor
  · -- visited_inb
    intro c hc
    rcases Finset.mem_insert.mp hc with hc | hc
    · exact hc ▸ hnin
    · exact inv.visited_inb c hc
  · exact Finset.mem_insert_of_mem inv.server_mem
  · intro c hc
    rcases List.mem_cons.mp hc with hc | hc
    · exact hc ▸ Finset.mem_insert_self _ _
    · exact Finset.mem_insert_of_mem (inv.stack_sub c hc)
  · intro hc
    rcases List.mem_cons.mp hc with hc | hc
    · exact hnsrv hc.symm
    · exact inv.server_not_stack hc
  · exact connectCell_lt inv.mask_lt (dirbit_lt hd).2 (dirbit_lt ho).2
  · -- blank_unvisited
    intro c hc
    show connectCell s.grid a n d o c = 0
    have hcn : c ≠ n := fun hcontra => hc (hcontra ▸ Finset.mem_insert_self _ _)
    have hcv : c ∉ s.visited := fun hcontra => hc (Finset.mem_insert_of_mem hcontra)
    have hca : c ≠ a := fun hcontra => hcv (hcontra ▸ ha)
    rw [connectCell_at_other hca hcn]
    exact inv.blank_unvisited c hcv
  · -- nonblank_visited
    intro c hc hcs
    show connectCell s.grid a n d o c ≠ 0
    rcases Finset.mem_insert.mp hc with hc | hc
    · rw [hc, connectCell_at_snd hne]
      exact (mask_or_dirbit_ne (inv.mask_lt n) ho).2
    · by_cases hca : c = a
      · rw [hca, connectCell_at_fst hne]
        exact (mask_or_dirbit_ne (inv.mask_lt a) hd).2
      · have hcn : c ≠ n := fun hcontra => hnvis (hcontra ▸ hc)
        rw [connectCell_at_other hca hcn]
        exact inv.nonblank_visited c hc hcs
  · -- sym
    intro p e' he' hbit
    replace hbit : connectCell s.grid a n d o p &&& e'.2.2.1 ≠ 0 := hbit
    show inBounds w h (offCell p e') ∧
      connectCell s.grid a n d o (offCell p e') &&& e'.2.2.2 ≠ 0
    by_cases hpn : p = n
    · rw [hpn, connectCell_at_snd hne] at hbit
      rw [hGn, Nat.zero_or] at hbit
      have hed : e'.2.2.1 = o := (dirbit_and_iff ho (dirbit_mem he').1).mp hbit
      have he'f : e' = (f'x, f'y, f'd, f'o) :=
        entry_unique_d hf' he' (by rw [hr3]; exact hed)
      have hoff : offCell p e' = a := by
        rw [he'f, hpn]
        apply cell_eq_iff.mpr
        unfold offCell
        constructor <;> simp only <;> omega
      rw [hoff]
      refine ⟨inv.visited_inb a ha, ?_⟩
      rw [connectCell_at_fst hne]
      have heo : e'.2.2.2 = d := by rw [he'f]; exact hr4
      rw [heo]
      exact (mask_or_dirbit_ne (inv.mask_lt a) hd).1
    · by_cases hpa : p = a
      · rw [hpa, connectCell_at_fst hne] at hbit
        rcases (mask_or_and_iff (inv.mask_lt a) hd (dirbit_mem he').1).mp hbit with
          hold | hnew
        · obtain ⟨h1, h2⟩ := inv.sym a e' he' hold
          rw [hpa]
          exact ⟨h1, hgrows _ _ (dirbit_mem he').2 h2⟩
        · have he'e : e' = (dx, dy, d, o) := entry_unique_d he he' hnew
          have hoff : offCell p e' = n := by
            rw [he'e, hpa, ← hn]
          rw [hoff]
          refine ⟨hnin, ?_⟩
          rw [connectCell_at_snd hne]
          have heo : e'.2.2.2 = o := by rw [he'e]
          rw [heo]
          exact (mask_or_dirbit_ne (inv.mask_lt n) ho).1
      · rw [connectCell_at_other hpa hpn] at hbit
        obtain ⟨h1, h2⟩ := inv.sym p e' he' hbit
        exact ⟨h1, hgrows _ _ (dirbit_mem he').2 h2⟩
  · -- reach
    intro c hc
    show mutualReach w h (connectCell s.grid a n d o) server c
    rcases Finset.mem_insert.mp hc with hc | hc
    · rw [hc]
      exact Relation.ReflTransGen.tail (mutualReach_mono hgrows (inv.reach a ha)) hstep_an
    · exact mutualReach_mono hgrows (inv.reach c hc)
  · -- card_sum
    have hcard : (insert n s.visited).card = s.visited.card + 1 :=
      Finset.card_insert_of_not_mem hnvis
    have hcardpos : 0 < s.visited.card := Finset.card_pos.mpr ⟨server, inv.server_mem⟩
    have hsum := sumPop_connect (mem_cellsFinset.mpr (inv.visited_inb a ha))
      (mem_cellsFinset.mpr hnin) hne hGn hfresh inv.mask_lt hd ho
    show sumPop w h (connectCell s.grid a n d o) = 2 * ((insert n s.visited).card - 1)
    rw [hsum, hcard, inv.card_sum]
    omega
  · -- tree
    obtain ⟨par, dep, htree0, htree1, htree2⟩ := inv.tree
    refine ⟨Function.update par n a, Function.update dep n (dep a + 1), ?_, ?_, ?_⟩
    · rw [Function.update_noteq (fun hcontra : server = n => hnsrv hcontra.symm)]
      exact htree0
    · intro c hc hcs
      rcases Finset.mem_insert.mp hc with hc | hc
      · subst hc
        rw [Function.update_same, Function.update_same,
          Function.update_noteq (fun hcontra : a = c => hnvis (hcontra ▸ ha))]
        exact ⟨Finset.mem_insert_of_mem ha, rfl, hstep_na, hstep_an⟩
      · have hcn : c ≠ n := fun hcontra => hnvis (hcontra ▸ hc)
        obtain ⟨hp1, hp2, hp3, hp4⟩ := htree1 c hc hcs
        have hpcn : par c ≠ n := fun hcontra => hnvis (hcontra ▸ hp1)
        rw [Function.update_noteq hcn, Function.update_noteq hcn,
          Function.update_noteq hpcn]
        exact ⟨Finset.mem_insert_of_mem hp1, hp2,
          mutualStep_mono hgrows hp3, mutualStep_mono hgrows hp4⟩
    · intro p q hpq
      rcases connectCell_edges he hn inv.mask_lt hGn inv.sym hpq with
        hold | ⟨hpa, hqn⟩ | ⟨hpn, hqa⟩
      · rcases htree2 p q hold with ⟨h1, h2, h3⟩ | ⟨h1, h2, h3⟩
        · have hqn : q ≠ n := fun hcontra => hnvis (hcontra ▸ h2)
          exact Or.inl ⟨h1, Finset.mem_insert_of_mem h2,
            (Function.update_noteq hqn _ _).trans h3⟩
        · have hpn : p ≠ n := fun hcontra => hnvis (hcontra ▸ h2)
          exact Or.inr ⟨h1, Finset.mem_insert_of_mem h2,
            (Function.update_noteq hpn _ _).trans h3⟩
      · refine Or.inl ?_
        rw [hqn, hpa]
        exact ⟨hnsrv, Finset.mem_insert_self _ _, Function.update_same _ _ _⟩
      · refine Or.inr ?_
        rw [hpn, hqa]
        exact ⟨hnsrv, Finset.mem_insert_self _ _, Function.update_same _ _ _⟩

theorem maskGrows_refl (g : Grid) : maskGrows g g := fun _ _ _ hb => hb

theorem maskGrows_trans {g1 g2 g3 : Grid} (h12 : maskGrows g1 g2)
    (h23 : maskGrows g2 g3) : maskGrows g1 g3 :=
  fun c d hd hb => h23 c d hd (h12 c d hd hb)

theorem offCell_inj {c : Cell} {e f : Int × Int × Nat × Nat}
    (he : e ∈ directionsList) (hf : f ∈ directionsList)
    (heq : offCell c e = offCell c f) : e = f := by
  fin_cases he <;> fin_cases hf <;>
    first
      | rfl
      | (exfalso; rw [cell_eq_iff] at heq; simp only [offCell] at heq; omega)

/-- Everything the initial-branch loop of `new_game` does: invariant
preservation, monotonicity, the exact bit count added to the server's
mask (`min` of the branch budget and the number of in-bounds neighbours
among the offered directions), full connection of the offered in-bounds
neighbours when the budget covers them, and the existence of a non-server
seed as soon as the budget is positive and an in-bounds direction is
offered. -/
theorem branch_loop_spec (w h : Nat) (server : Cell) :
    ∀ (dirs : List (Int × Int × Nat × Nat)) (b : Nat) (s : GenState),
      GenInv w h server s →
      (∀ e ∈ dirs, e ∈ directionsList) →
      (dirs.map fun e => e.2.2.1).Nodup →
      (∀ e ∈ dirs, s.grid server &&& e.2.2.1 = 0) →
      (∀ e ∈ dirs, offCell server e ∉ s.visited) →
      GenInv w h server (branch_loop w h server dirs b s) ∧
        (∀ c ∈ s.visited, c ∈ (branch_loop w h server dirs b s).visited) ∧
        (∀ x ∈ s.stack, x ∈ (branch_loop w h server dirs b s).stack) ∧
        maskGrows s.grid (branch_loop w h server dirs b s).grid ∧
        popcountMask ((branch_loop w h server dirs b s).grid server) =
          popcountMask (s.grid server) +
            min b (dirs.countP fun e => decide (inBounds w h (offCell server e))) ∧
        ((dirs.countP fun e => decide (inBounds w h (offCell server e))) ≤ b →
          ∀ e ∈ dirs, inBounds w h (offCell server e) →
            offCell server e ∈ (branch_loop w h server dirs b s).visited) ∧
        (1 ≤ b → ∀ e ∈ dirs, inBounds w h (offCell server e) →
          ∃ z ∈ (branch_loop w h server dirs b s).visited, z ≠ server) ∧
        (∀ c ∈ (branch_loop w h server dirs b s).visited,
          c ∈ s.visited ∨ c ∈ (branch_loop w h server dirs b s).stack) ∧
        (∃ k, (branch_loop w h server dirs b s).visited.card = s.visited.card + k ∧
          (branch_loop w h server dirs b s).stack.length = s.stack.length + k) := by
  intro dirs
  induction dirs with
  | nil =>
    intro b s inv _ _ _ _
    simp only [branch_loop, List.countP_nil, Nat.min_zero, List.not_mem_nil]
    exact ⟨inv, fun c hc => hc, fun x hx => hx, maskGrows_refl _, by omega,
      fun _ e he => he.elim, fun _ e he => he.elim, fun c hc => Or.inl hc, 0, rfl, rfl⟩
  | cons e rest ih =>
    intro b s inv hsub hnodup hzero hunvis
    obtain ⟨dx, dy, d, o⟩ := e
    have hehead : ((dx, dy, d, o) : Int × Int × Nat × Nat) ∈ directionsList :=
      hsub _ (List.mem_cons_self _ _)
    have hrestsub : ∀ e' ∈ rest, e' ∈ directionsList :=
      fun e' he' => hsub e' (List.mem_cons_of_mem _ he')
    have hrestnodup : (rest.map fun e => e.2.2.1).Nodup := by
      simpa using (List.nodup_cons.mp (by simpa using hnodup)).2
    have hdne : ∀ e' ∈ rest, e'.2.2.1 ≠ d := by
      intro e' he' hcontra
      have hmem : d ∈ rest.map fun e => e.2.2.1 :=
        hcontra ▸ List.mem_map_of_mem _ he'
      exact (List.nodup_cons.mp (by simpa using hnodup)).1 hmem
    by_cases hb : b = 0
    · subst hb
      have hstep : branch_loop w h server ((dx, dy, d, o) :: rest) 0 s = s := by
        simp [branch_loop]
      rw [hstep]
      simp only [Nat.zero_min]
      refine ⟨inv, fun c hc => hc, fun x hx => hx, maskGrows_refl _, by omega,
        ?_, by omega, fun c hc => Or.inl hc, 0, rfl, rfl⟩
      intro hcount e' he' hin
      exfalso
      have : 0 < (((dx, dy, d, o) :: rest).countP
          fun e => decide (inBounds w h (offCell server e))) :=
        List.countP_pos.mpr ⟨e', he', by simpa using hin⟩
      omega
    · by_cases hin : inBounds w h (offCell server (dx, dy, d, o))
      · -- connect the head neighbour, then recurse with budget `b - 1`
        have hoff : offCell server ((dx, dy, d, o) : Int × Int × Nat × Nat) =
            (server.1 + dx, server.2 + dy) := rfl
        have hstep : branch_loop w h server ((dx, dy, d, o) :: rest) b s =
            branch_loop w h server rest (b - 1)
              { grid := connectCell s.grid server (server.1 + dx, server.2 + dy) d o
                visited := insert (server.1 + dx, server.2 + dy) s.visited
                stack := (server.1 + dx, server.2 + dy) :: s.stack } := by
          simp only [branch_loop, if_neg hb]
          rw [if_pos (hoff ▸ hin)]
        set n0 : Cell := (server.1 + dx, server.2 + dy) with hn0def
        have hn0 : n0 = offCell server (dx, dy, d, o) := rfl
        set s' : GenState :=
          { grid := connectCell s.grid server n0 d o
            visited := insert n0 s.visited
            stack := n0 :: s.stack } with hs'
        have hinv' : GenInv w h server s' :=
          connect_step_inv inv inv.server_mem hehead rfl hin
            (hunvis _ (List.mem_cons_self _ _))
        have hne : n0 ≠ server := by
          rw [hn0]
          exact offCell_ne hehead
        have hgrows1 : maskGrows s.grid s'.grid :=
          connectCell_grows (by rw [hn0]; exact offCell_ne hehead) inv.mask_lt
            (dirbit_mem hehead).1 (dirbit_mem hehead).2
        have hsrvmask : s'.grid server = s.grid server ||| d := by
          show connectCell s.grid server n0 d o server = _
          exact connectCell_at_fst hne
        have hzero' : ∀ e' ∈ rest, s'.grid server &&& e'.2.2.1 = 0 := by
          intro e' he'
          rw [hsrvmask]
          have hiff := mask_or_and_iff (inv.mask_lt server) (dirbit_mem hehead).1
            (dirbit_mem (hrestsub e' he')).1
          by_contra hcontra
          rcases hiff.mp hcontra with hold | hdd
          · exact hold (hzero e' (List.mem_cons_of_mem _ he'))
          · exact hdne e' he' hdd
        have hunvis' : ∀ e' ∈ rest, offCell server e' ∉ s'.visited := by
          intro e' he' hcontra
          rcases Finset.mem_insert.mp hcontra with hc | hc
          · have : e' = (dx, dy, d, o) :=
              offCell_inj (hrestsub e' he') hehead (hc.trans hn0)
            exact hdne e' he' (by rw [this])
          · exact hunvis e' (List.mem_cons_of_mem _ he') hc
        obtain ⟨r1, r2, r3, r4, r5, r6, r7, r8, k9, hk9a, hk9b⟩ :=
          ih (b - 1) s' hinv' hrestsub hrestnodup hzero' hunvis'
        rw [hstep]
        have hvmono : ∀ c ∈ s.visited,
            c ∈ (branch_loop w h server rest (b - 1) s').visited :=
          fun c hc => r2 c (Finset.mem_insert_of_mem hc)
        have hsmono : ∀ x ∈ s.stack,
            x ∈ (branch_loop w h server rest (b - 1) s').stack :=
          fun x hx => r3 x (List.mem_cons_of_mem _ hx)
        have hn0mem : n0 ∈ (branch_loop w h server rest (b - 1) s').visited :=
          r2 n0 (Finset.mem_insert_self _ _)
        have hn0stack : n0 ∈ (branch_loop w h server rest (b - 1) s').stack :=
          r3 n0 (List.mem_cons_self _ _)
        refine ⟨r1, hvmono, hsmono, maskGrows_trans hgrows1 r4, ?_, ?_, ?_, ?_, ?_⟩
        · rw [r5]
          have hpop : popcountMask (s'.grid server) = popcountMask (s.grid server) + 1 := by
            rw [hsrvmask]
            exact popcount_or_fresh (inv.mask_lt server) (dirbit_mem hehead).1
              (hzero _ (List.mem_cons_self _ _))
          rw [hpop]
          have hcount : (((dx, dy, d, o) :: rest).countP
              fun e => decide (inBounds w h (offCell server e))) =
              (rest.countP fun e => decide (inBounds w h (offCell server e))) + 1 := by
            rw [List.countP_cons]
            simp [hin]
          rw [hcount]
          omega
        · intro hcount e' he' hin'
          rcases List.mem_cons.mp he' with he'' | he''
          · rw [he'']
            exact hn0mem
          · apply r6 _ e' he'' hin'
            have hc : (((dx, dy, d, o) :: rest).countP
                fun e => decide (inBounds w h (offCell server e))) =
                (rest.countP fun e => decide (inBounds w h (offCell server e))) + 1 := by
              rw [List.countP_cons]
              simp [hin]
            omega
        · intro _ e' he' hin'
          exact ⟨n0, hn0mem, hne⟩
        · intro c hc
          rcases r8 c hc with hc' | hc'
          · rcases Finset.mem_insert.mp hc' with hc'' | hc''
            · exact Or.inr (hc'' ▸ hn0stack)
            · exact Or.inl hc''
          · exact Or.inr hc'
        · refine ⟨k9 + 1, ?_, ?_⟩
          · rw [hk9a]
            have : s'.visited.card = s.visited.card + 1 :=
              Finset.card_insert_of_not_mem (hunvis _ (List.mem_cons_self _ _))
            omega
          · rw [hk9b]
            have : s'.stack.length = s.stack.length + 1 := rfl
            omega
      · -- head neighbour out of bounds: skip it
        have hstep : branch_loop w h server ((dx, dy, d, o) :: rest) b s =
            branch_loop w h server rest b s := by
          simp only [branch_loop, if_neg hb]
          rw [if_neg (show ¬ inBounds w h ((server.1 + dx, server.2 + dy) : Cell) from hin)]
        obtain ⟨r1, r2, r3, r4, r5, r6, r7, r8, k9, hk9a, hk9b⟩ :=
          ih b s inv hrestsub hrestnodup
            (fun e' he' => hzero e' (List.mem_cons_of_mem _ he'))
            (fun e' he' => hunvis e' (List.mem_cons_of_mem _ he'))
        rw [hstep]
        have hcount : (((dx, dy, d, o) :: rest).countP
            fun e => decide (inBounds w h (offCell server e))) =
            (rest.countP fun e => decide (inBounds w h (offCell server e))) := by
          rw [List.countP_cons]
          simp [hin]
        refine ⟨r1, r2, r3, r4, ?_, ?_, ?_, r8, k9, hk9a, hk9b⟩
        · rw [r5, hcount]
        · intro hcnt e' he' hin'
          rcases List.mem_cons.mp he' with he'' | he''
          · exact absurd (he'' ▸ hin') hin
          · exact r6 (by omega) e' he'' hin'
        · intro hb1 e' he' hin'
          rcases List.mem_cons.mp he' with he'' | he''
          · exact absurd (he'' ▸ hin') hin
          · exact r7 hb1 e' he'' hin'

/-- Characterisation of an empty DFS neighbour list: every direction
leads out of bounds or to a visited cell. -/
theorem dfsNeighbors_nil {w h : Nat} {dirs : List (Int × Int × Nat × Nat)}
    {visited : Finset Cell} {c : Cell}
    (hnil : dfsNeighbors w h dirs visited c = []) :
    ∀ e ∈ dirs, inBounds w h (offCell c e) → offCell c e ∈ visited := by
  intro e he hin
  by_contra hnv
  have hmem : (offCell c e, e.2.2.1, e.2.2.2) ∈ dfsNeighbors w h dirs visited c := by
    unfold dfsNeighbors
    apply List.mem_filterMap.mpr
    refine ⟨e, he, ?_⟩
    obtain ⟨dx, dy, d, o⟩ := e
    simp only
    rw [if_pos ⟨hin, hnv⟩]
    rfl
  rw [hnil] at hmem
  exact absurd hmem (List.not_mem_nil _)

/-- Every member of the DFS neighbour list comes from a direction-table
entry and is an in-bounds, unvisited neighbour of the inspected cell. -/
theorem dfsNeighbors_mem {w h : Nat} {dirs : List (Int × Int × Nat × Nat)}
    {visited : Finset Cell} {c : Cell} {t : Cell × Nat × Nat}
    (hmem : t ∈ dfsNeighbors w h dirs visited c) :
    ∃ e ∈ dirs, t.1 = offCell c e ∧ t.2.1 = e.2.2.1 ∧ t.2.2 = e.2.2.2 ∧
      inBounds w h t.1 ∧ t.1 ∉ visited := by
  unfold dfsNeighbors at hmem
  obtain ⟨e, he, hfe⟩ := List.mem_filterMap.mp hmem
  obtain ⟨dx, dy, d, o⟩ := e
  simp only at hfe
  by_cases hcond : inBounds w h ((c.1 + dx, c.2 + dy) : Cell) ∧
      ((c.1 + dx, c.2 + dy) : Cell) ∉ visited
  · rw [if_pos hcond] at hfe
    have ht := Option.some.inj hfe
    refine ⟨(dx, dy, d, o), he, ?_, ?_, ?_, ?_, ?_⟩ <;> rw [← ht] <;>
      first
        | rfl
        | exact hcond.1
        | exact hcond.2
  · rw [if_neg hcond] at hfe
    exact Option.noConfusion hfe

/-- Everything the `while stack:` DFS loop of `new_game` does: with
enough fuel it empties the stack while preserving the generation and
frontier invariants, growing the visited set and grid monotonically and
never touching the server's mask. -/
theorem dfs_loop_spec (w h : Nat) (dirs : List (Int × Int × Nat × Nat))
    (pick : Nat → Nat) (server : Cell) (hdirs : dirs.Perm directionsList) :
    ∀ (fuel t : Nat) (s : GenState), GenInv w h server s → Frontier w h server s →
      2 * (w * h - s.visited.card) + s.stack.length ≤ fuel →
      GenInv w h server (dfs_loop w h dirs pick fuel t s) ∧
        Frontier w h server (dfs_loop w h dirs pick fuel t s) ∧
        (dfs_loop w h dirs pick fuel t s).stack = [] ∧
        (∀ c ∈ s.visited, c ∈ (dfs_loop w h dirs pick fuel t s).visited) ∧
        maskGrows s.grid (dfs_loop w h dirs pick fuel t s).grid ∧
        (dfs_loop w h dirs pick fuel t s).grid server = s.grid server := by
  intro fuel
  induction fuel with
  | zero =>
    intro t s inv hfr hfuel
    have hst : s.stack = [] := List.length_eq_zero.mp (by omega)
    rw [show dfs_loop w h dirs pick 0 t s = s from rfl]
    exact ⟨inv, hfr, hst, fun c hc => hc, maskGrows_refl _, rfl⟩
  | succ fuel ihfuel =>
    intro t s inv hfr hfuel
    match hstack : s.stack with
    | [] =>
      have hloop : dfs_loop w h dirs pick (fuel + 1) t s = s := by
        simp only [dfs_loop, hstack]
      rw [hloop]
      exact ⟨inv, hfr, hstack, fun c hc => hc, maskGrows_refl _, rfl⟩
    | c :: rest =>
      have hcmem : c ∈ s.visited := inv.stack_sub c (hstack ▸ List.mem_cons_self _ _)
      have hcsrv : c ≠ server :=
        fun hc => inv.server_not_stack (hc ▸ hstack ▸ List.mem_cons_self _ _)
      by_cases hne : dfsNeighbors w h dirs s.visited c = []
      · -- dead end: pop
        have hloop : dfs_loop w h dirs pick (fuel + 1) t s =
            dfs_loop w h dirs pick fuel (t + 1) { s with stack := rest } := by
          simp only [dfs_loop, hstack]
          rw [dif_pos hne]
        rw [hloop]
        have inv' : GenInv w h server { s with stack := rest } :=
          ⟨inv.visited_inb, inv.server_mem,
            fun x hx => inv.stack_sub x (hstack ▸ List.mem_cons_of_mem _ hx),
            fun hx => inv.server_not_stack (hstack ▸ List.mem_cons_of_mem _ hx),
            inv.mask_lt, inv.blank_unvisited, inv.nonblank_visited, inv.sym,
            inv.reach, inv.card_sum, inv.tree⟩
        have hfr' : Frontier w h server { s with stack := rest } := by
          intro x hx
          by_cases hxc : x = c
          · refine Or.inr (Or.inr ?_)
            intro e he hin
            exact hxc ▸ dfsNeighbors_nil hne e ((hdirs.mem_iff).mpr he) (hxc ▸ hin)
          · rcases hfr x hx with hx' | hx' | hx'
            · exact Or.inl hx'
            · rw [hstack] at hx'
              rcases List.mem_cons.mp hx' with hx'' | hx''
              · exact absurd hx'' hxc
              · exact Or.inr (Or.inl hx'')
            · exact Or.inr (Or.inr hx')
        have hfuel' : 2 * (w * h - s.visited.card) + rest.length ≤ fuel := by
          have : s.stack.length = rest.length + 1 := by rw [hstack]; rfl
          omega
        exact ihfuel (t + 1) _ inv' hfr' hfuel'
      · -- extend: connect a random unvisited neighbour and push it
        have hlenpos : 0 < (dfsNeighbors w h dirs s.visited c).length :=
          List.length_pos.mpr hne
        set gt := (dfsNeighbors w h dirs s.visited c).get
          ⟨pick t % (dfsNeighbors w h dirs s.visited c).length, Nat.mod_lt _ hlenpos⟩
          with hgt
        have hpmem : gt ∈ dfsNeighbors w h dirs s.visited c := by
          rw [hgt]
          exact List.get_mem _ _ _
        obtain ⟨e, he, hp1, hp2, hp3, hpin, hpnv⟩ := dfsNeighbors_mem hpmem
        have hedir : e ∈ directionsList := (hdirs.mem_iff).mp he
        obtain ⟨dx, dy, d, o⟩ := e
        have hp1' : gt.1 = offCell c (dx, dy, d, o) := hp1
        have hp2' : gt.2.1 = d := hp2
        have hp3' : gt.2.2 = o := hp3
        rw [hp1'] at hpin hpnv
        have hloop : dfs_loop w h dirs pick (fuel + 1) t s =
            dfs_loop w h dirs pick fuel (t + 1)
              { grid := connectCell s.grid c gt.1 gt.2.1 gt.2.2
                visited := insert gt.1 s.visited
                stack := gt.1 :: s.stack } := by
          simp only [dfs_loop, hstack]
          rw [dif_neg hne]
        rw [hp1', hp2', hp3'] at hloop
        rw [hloop]
        have hinv' : GenInv w h server
            { grid := connectCell s.grid c (offCell c (dx, dy, d, o)) d o
              visited := insert (offCell c (dx, dy, d, o)) s.visited
              stack := offCell c (dx, dy, d, o) :: s.stack } :=
          connect_step_inv inv hcmem hedir rfl hpin hpnv
        have hfr' : Frontier w h server
            { grid := connectCell s.grid c (offCell c (dx, dy, d, o)) d o
              visited := insert (offCell c (dx, dy, d, o)) s.visited
              stack := offCell c (dx, dy, d, o) :: s.stack } := by
          intro x hx
          rcases Finset.mem_insert.mp hx with hx' | hx'
          · exact Or.inr (Or.inl (hx' ▸ List.mem_cons_self _ _))
          · rcases hfr x hx' with hx'' | hx'' | hx''
            · exact Or.inl hx''
            · exact Or.inr (Or.inl (List.mem_cons_of_mem _ hx''))
            · exact Or.inr (Or.inr fun e' he' hin' =>
                Finset.mem_insert_of_mem (hx'' e' he' hin'))
        have hcard : (insert (offCell c (dx, dy, d, o)) s.visited).card =
            s.visited.card + 1 := Finset.card_insert_of_not_mem hpnv
        have hcardle : (insert (offCell c (dx, dy, d, o)) s.visited).card ≤ w * h := by
          rw [← card_cellsFinset w h]
          exact Finset.card_le_card fun x hx => mem_cellsFinset.mpr (hinv'.visited_inb x hx)
        have hfuel' : 2 * (w * h -
            (insert (offCell c (dx, dy, d, o)) s.visited).card) +
            (offCell c (dx, dy, d, o) :: s.stack).length ≤ fuel := by
          have hlen1 : (offCell c (dx, dy, d, o) :: s.stack).length =
              s.stack.length + 1 := rfl
          have hlen2 : s.stack.length = rest.length + 1 := by rw [hstack]; rfl
          omega
        obtain ⟨r1, r2, r3, r4, r5, r6⟩ := ihfuel (t + 1) _ hinv' hfr' hfuel'
        have hgrows1 : maskGrows s.grid
            (connectCell s.grid c (offCell c (dx, dy, d, o)) d o) :=
          connectCell_grows (offCell_ne hedir) inv.mask_lt
            (dirbit_mem hedir).1 (dirbit_mem hedir).2
        refine ⟨r1, r2, r3, ?_, maskGrows_trans hgrows1 r5, ?_⟩
        · exact fun x hx => r4 x (Finset.mem_insert_of_mem hx)
        · rw [r6]
          show connectCell s.grid c (offCell c (dx, dy, d, o)) d o server = s.grid server
          have h1 : server ≠ c := Ne.symm hcsrv
          have h2 : server ≠ offCell c (dx, dy, d, o) :=
            fun hcontra => hpnv (hcontra ▸ inv.server_mem)
          exact connectCell_at_other h1 h2

/-! ### Connectivity of the grid graph minus the server -/

theorem adjAvoid_symm {w h : Nat} {avoid : Cell} : Symmetric (adjAvoid w h avoid) := by
  intro a b ⟨ha, hb, has, hbs, e, he, hoff⟩
  obtain ⟨f, hf, h1, h2, h3, h4⟩ := rev_entry he
  refine ⟨hb, ha, hbs, has, f, hf, ?_⟩
  obtain ⟨dx, dy, d, o⟩ := e
  obtain ⟨fx, fy, fd, fo⟩ := f
  simp only at h1 h2
  have hb1 : b.1 = a.1 + dx := by rw [hoff]; rfl
  have hb2 : b.2 = a.2 + dy := by rw [hoff]; rfl
  apply cell_eq_iff.mpr
  unfold offCell
  constructor <;> simp only <;> omega

theorem reachAvoid_symm {w h : Nat} {avoid : Cell} {a b : Cell}
    (hr : reachAvoid w h avoid a b) : reachAvoid w h avoid b a :=
  Relation.ReflTransGen.symmetric adjAvoid_symm hr

/-- Vertical walk downwards the grid (increasing `y` by a natural number),
avoiding a cell absent from the traversed segment. -/
theorem reachAvoid_vert_up (w h : Nat) (avoid : Cell) (x : Int) :
    ∀ (n : Nat) (y : Int),
      (∀ y', y ≤ y' → y' ≤ y + n → inBounds w h (x, y') ∧ (x, y') ≠ avoid) →
      reachAvoid w h avoid (x, y) (x, y + n) := by
  intro n
  induction n with
  | zero =>
    intro y _
    rw [show y + ((0 : Nat) : Int) = y by omega]
    exact Relation.ReflTransGen.refl
  | succ n ih =>
    intro y hok
    have hreach : reachAvoid w h avoid (x, y) (x, y + n) :=
      ih y fun y' h1 h2 => hok y' h1 (by omega)
    refine Relation.ReflTransGen.tail hreach ?_
    have hok1 := hok (y + n) (by omega) (by omega)
    have hok2 := hok (y + (n + 1 : Nat)) (by omega) (by omega)
    refine ⟨hok1.1, hok2.1, hok1.2, hok2.2, (0, 1, DOWN, UP), by decide, ?_⟩
    apply cell_eq_iff.mpr
    unfold offCell
    constructor <;> simp only <;> omega

/-- Vertical walk between any two rows of a column avoiding a cell
outside the segment. -/
theorem reachAvoid_vert (w h : Nat) (avoid : Cell) (x y1 y2 : Int)
    (hok : ∀ y', min y1 y2 ≤ y' → y' ≤ max y1 y2 →
      inBounds w h (x, y') ∧ (x, y') ≠ avoid) :
    reachAvoid w h avoid (x, y1) (x, y2) := by
  rcases le_total y1 y2 with hle | hle
  · have h2 : y2 = y1 + ((y2 - y1).toNat : Int) := by omega
    rw [h2]
    exact reachAvoid_vert_up w h avoid x _ y1 fun y' ha hb =>
      hok y' (by omega) (by omega)
  · apply reachAvoid_symm
    have h2 : y1 = y2 + ((y1 - y2).toNat : Int) := by omega
    rw [h2]
    exact reachAvoid_vert_up w h avoid x _ y2 fun y' ha hb =>
      hok y' (by omega) (by omega)

/-- Horizontal walk rightwards along a row. -/
theorem reachAvoid_horiz_right (w h : Nat) (avoid : Cell) (y : Int) :
    ∀ (n : Nat) (x : Int),
      (∀ x', x ≤ x' → x' ≤ x + n → inBounds w h (x', y) ∧ (x', y) ≠ avoid) →
      reachAvoid w h avoid (x, y) (x + n, y) := by
  intro n
  induction n with
  | zero =>
    intro x _
    rw [show x + ((0 : Nat) : Int) = x by omega]
    exact Relation.ReflTransGen.refl
  | succ n ih =>
    intro x hok
    have hreach : reachAvoid w h avoid (x, y) (x + n, y) :=
      ih x fun x' h1 h2 => hok x' h1 (by omega)
    refine Relation.ReflTransGen.tail hreach ?_
    have hok1 := hok (x + n) (by omega) (by omega)
    have hok2 := hok (x + (n + 1 : Nat)) (by omega) (by omega)
    refine ⟨hok1.1, hok2.1, hok1.2, hok2.2, (1, 0, RIGHT, LEFT), by decide, ?_⟩
    apply cell_eq_iff.mpr
    unfold offCell
    constructor <;> simp only <;> omega

/-- Horizontal walk between any two columns of a row. -/
theorem reachAvoid_horiz (w h : Nat) (avoid : Cell) (y x1 x2 : Int)
    (hok : ∀ x', min x1 x2 ≤ x' → x' ≤ max x1 x2 →
      inBounds w h (x', y) ∧ (x', y) ≠ avoid) :
    reachAvoid w h avoid (x1, y) (x2, y) := by
  rcases le_total x1 x2 with hle | hle
  · have h2 : x2 = x1 + ((x2 - x1).toNat : Int) := by omega
    rw [h2]
    exact reachAvoid_horiz_right w h avoid y _ x1 fun x' ha hb =>
      hok x' (by omega) (by omega)
  · apply reachAvoid_symm
    have h2 : x1 = x2 + ((x1 - x2).toNat : Int) := by omega
    rw [h2]
    exact reachAvoid_horiz_right w h avoid y _ x2 fun x' ha hb =>
      hok x' (by omega) (by omega)

/-- In a grid with both sides at least 2 and the avoided cell off the
left column and top row, every other in-bounds cell reaches the corner
`(0, 0)` in the grid graph minus that cell. -/
theorem reachAvoid_corner (w h : Nat) (server : Cell) (hw : 2 ≤ w) (hh : 2 ≤ h)
    (hs1 : 1 ≤ server.1) (hs2 : 1 ≤ server.2) (c : Cell)
    (hc : inBounds w h c) (hcs : c ≠ server) :
    reachAvoid w h server c ((0 : Int), (0 : Int)) := by
  obtain ⟨hc1, hc2, hc3, hc4⟩ := hc
  have hrow0 : ∀ x', (0 : Int) ≤ x' → x' < w → inBounds w h (x', 0) ∧ (x', 0) ≠ server := by
    intro x' h1 h2
    refine ⟨⟨h1, h2, by omega, by omega⟩, ?_⟩
    intro hcontra
    have : (0 : Int) = server.2 := by rw [← hcontra]
    omega
  by_cases hcol : c.1 = server.1
  · -- same column as the server: sidestep one cell to the left first
    have hstep : adjAvoid w h server c (c.1 - 1, c.2) := by
      refine ⟨⟨hc1, hc2, hc3, hc4⟩, ⟨by omega, by omega, by omega, by omega⟩, hcs, ?_,
        (-1, 0, LEFT, RIGHT), by decide, ?_⟩
      · intro hcontra
        have : c.1 - 1 = server.1 := by rw [← hcontra]
        omega
      · apply cell_eq_iff.mpr
        unfold offCell
        constructor <;> simp only <;> omega
    have hcolok : ∀ y', min c.2 0 ≤ y' → y' ≤ max c.2 0 →
        inBounds w h (c.1 - 1, y') ∧ (c.1 - 1, y') ≠ server := by
      intro y' h1 h2
      refine ⟨⟨by omega, by omega, by omega, by omega⟩, ?_⟩
      intro hcontra
      have : c.1 - 1 = server.1 := by rw [← hcontra]
      omega
    have hwalk1 : reachAvoid w h server (c.1 - 1, c.2) (c.1 - 1, 0) :=
      reachAvoid_vert w h server _ _ _ hcolok
    have hwalk2 : reachAvoid w h server (c.1 - 1, 0) (0, 0) :=
      reachAvoid_horiz w h server 0 (c.1 - 1) 0 fun x' h1 h2 =>
        hrow0 x' (by omega) (by omega)
    exact Relation.ReflTransGen.trans (Relation.ReflTransGen.head hstep hwalk1) hwalk2
  · -- different column: walk to the top of the column, then to the corner
    have hcolok : ∀ y', min c.2 0 ≤ y' → y' ≤ max c.2 0 →
        inBounds w h (c.1, y') ∧ (c.1, y') ≠ server := by
      intro y' h1 h2
      refine ⟨⟨by omega, by omega, by omega, by omega⟩, ?_⟩
      intro hcontra
      have : c.1 = server.1 := by rw [← hcontra]
      exact hcol this
    have hwalk1 : reachAvoid w h server c (c.1, 0) := by
      have hceta : c = (c.1, c.2) := rfl
      rw [hceta]
      exact reachAvoid_vert w h server _ _ _ hcolok
    have hwalk2 : reachAvoid w h server (c.1, 0) (0, 0) :=
      reachAvoid_horiz w h server 0 c.1 0 fun x' h1 h2 => hrow0 x' (by omega) (by omega)
    exact Relation.ReflTransGen.trans hwalk1 hwalk2

/-- First crossing: a path from inside a set to outside it contains an
edge leaving the set. -/
theorem exists_crossing {α : Type} {r : α → α → Prop} {P : α → Prop} {z u : α}
    (hr : Relation.ReflTransGen r z u) (hz : P z) :
    ¬ P u → ∃ a b, r a b ∧ P a ∧ ¬ P b := by
  induction hr with
  | refl => exact fun hu => absurd hz hu
  | @tail m u2 hzm hmu ih =>
    intro hu
    by_cases hm : P m
    · exact ⟨m, u2, hmu, hm, hu⟩
    · exact ih hm

/-! ### The generated solution grid is a spanning tree -/

theorem serverPos_inBounds {w h : Nat} (hw : 1 ≤ w) (hh : 1 ≤ h) :
    inBounds w h (serverPos w h) := by
  unfold serverPos inBounds
  refine ⟨?_, ?_, ?_, ?_⟩ <;> simp only <;> omega

/-- The combined effect of the branch phase and the DFS phase of
`new_game`: the generation invariant and frontier hold of the final
state, the stack is empty, the server's degree is exactly
`min b (number of in-bounds neighbours)`, a non-server seed is visited
whenever some direction is in bounds, and all in-bounds neighbours of
the server are visited when the budget covers them. -/
theorem new_game_base (w h : Nat) (dirs : List (Int × Int × Nat × Nat))
    (b : Nat) (pick : Nat → Nat) (hw : 1 ≤ w) (hh : 1 ≤ h)
    (hdirs : dirs.Perm directionsList) (hb : 1 ≤ b) :
    GenInv w h (serverPos w h) (new_game_solution w h dirs b pick) ∧
      Frontier w h (serverPos w h) (new_game_solution w h dirs b pick) ∧
      (new_game_solution w h dirs b pick).stack = [] ∧
      popcountMask ((new_game_solution w h dirs b pick).grid (serverPos w h)) =
        min b (inBoundsNeighborCount w h (serverPos w h)) ∧
      ((∃ e ∈ directionsList, inBounds w h (offCell (serverPos w h) e)) →
        ∃ z ∈ (new_game_solution w h dirs b pick).visited, z ≠ serverPos w h) ∧
      (inBoundsNeighborCount w h (serverPos w h) ≤ b →
        ∀ e ∈ directionsList, inBounds w h (offCell (serverPos w h) e) →
          offCell (serverPos w h) e ∈ (new_game_solution w h dirs b pick).visited) := by
  set server := serverPos w h with hserver
  have hsin : inBounds w h server := serverPos_inBounds hw hh
  set s0 : GenState := { grid := fun _ => 0, visited := {server}, stack := [] } with hs0
  have hsum0 : sumPop w h s0.grid = 0 := by
    unfold sumPop
    apply Finset.sum_eq_zero
    intro c _
    show popcountMask 0 = 0
    decide
  have inv0 : GenInv w h server s0 := by
    refine ⟨?_, ?_, ?_, ?_, ?_, ?_, ?_, ?_, ?_, ?_, ?_⟩
    · intro c hc
      rw [Finset.mem_singleton.mp hc]
      exact hsin
    · exact Finset.mem_singleton_self server
    · intro c hc
      exact absurd hc (List.not_mem_nil c)
    · exact List.not_mem_nil server
    · intro c
      show (0 : Nat) < 16
      decide
    · intro c _
      rfl
    · intro c hc hcs
      exact absurd (Finset.mem_singleton.mp hc) hcs
    · intro a e he hbit
      exact absurd (Nat.zero_and _) hbit
    · intro c hc
      rw [Finset.mem_singleton.mp hc]
      exact Relation.ReflTransGen.refl
    · rw [hsum0, Finset.card_singleton]
    · refine ⟨fun _ => server, fun _ => 0, rfl, ?_, ?_⟩
      · intro c hc hcs
        exact absurd (Finset.mem_singleton.mp hc) hcs
      · intro p q hpq
        obtain ⟨dx, dy, d, o, _, _, _, hbit, _⟩ := hpq
        exact absurd (Nat.zero_and _) hbit
  have hdirsub : ∀ e ∈ dirs, e ∈ directionsList := fun e he => hdirs.mem_iff.mp he
  have hnodup : (dirs.map fun e => e.2.2.1).Nodup := by
    have hperm := hdirs.map fun e => e.2.2.1
    have hcanon : ((directionsList.map fun e => e.2.2.1)).Nodup := by decide
    exact hperm.nodup_iff.mpr hcanon
  have hzero : ∀ e ∈ dirs, s0.grid server &&& e.2.2.1 = 0 :=
    fun e _ => Nat.zero_and _
  have hunvis : ∀ e ∈ dirs, offCell server e ∉ s0.visited := by
    intro e he hc
    exact offCell_ne (hdirsub e he) (Finset.mem_singleton.mp hc)
  obtain ⟨B1, B2, B3, B4, B5, B6, B7, B8, k9, hk9a, hk9b⟩ :=
    branch_loop_spec w h server dirs b s0 inv0 hdirsub hnodup hzero hunvis
  set s1 := branch_loop w h server dirs b s0 with hs1
  have hfr1 : Frontier w h server s1 := by
    intro c hc
    rcases B8 c hc with hc' | hc'
    · exact Or.inl (Finset.mem_singleton.mp hc')
    · exact Or.inr (Or.inl hc')
  have hcard1le : s1.visited.card ≤ w * h := by
    rw [← card_cellsFinset w h]
    exact Finset.card_le_card fun x hx => mem_cellsFinset.mpr (B1.visited_inb x hx)
  have hcard1 : s1.visited.card = 1 + k9 := by
    rw [hk9a, hs0]
    simp
  have hlen1 : s1.stack.length = k9 := by
    rw [hk9b, hs0]
    simp
  have hfuel : 2 * (w * h - s1.visited.card) + s1.stack.length ≤ 2 * (w * h) + 2 := by
    omega
  obtain ⟨D1, D2, D3, D4, D5, D6⟩ :=
    dfs_loop_spec w h dirs pick server hdirs (2 * (w * h) + 2) 0 s1 B1 hfr1 hfuel
  have hfinal : new_game_solution w h dirs b pick =
      dfs_loop w h dirs pick (2 * (w * h) + 2) 0 s1 := rfl
  rw [hfinal]
  have hcount : (dirs.countP fun e => decide (inBounds w h (offCell server e))) =
      inBoundsNeighborCount w h server := by
    unfold inBoundsNeighborCount
    exact hdirs.countP_eq _
  refine ⟨D1, D2, D3, ?_, ?_, ?_⟩
  · rw [D6, B5, hcount]
    have hzero0 : s0.grid server = 0 := rfl
    rw [hzero0, show popcountMask 0 = 0 from by decide]
    omega
  · intro ⟨e, he, hin⟩
    obtain ⟨z, hz, hzs⟩ := B7 hb e (hdirs.mem_iff.mpr he) hin
    exact ⟨z, D4 z hz, hzs⟩
  · intro hle e he hin
    exact D4 _ (B6 (by rw [hcount]; exact hle) e (hdirs.mem_iff.mpr he) hin)

/-- The generation DFS visits every cell: the visited set of the final
state is exactly the set of in-bounds cells. -/
theorem new_game_visits_all (w h : Nat) (dirs : List (Int × Int × Nat × Nat))
    (b : Nat) (pick : Nat → Nat) (hw : 1 ≤ w) (hh : 1 ≤ h)
    (hdirs : dirs.Perm directionsList) (hb : 2 ≤ b) :
    (new_game_solution w h dirs b pick).visited = cellsFinset w h := by
  obtain ⟨hinv, hfr, hstk, hpop, hseed, hall⟩ :=
    new_game_base w h dirs b pick hw hh hdirs (by omega)
  set F := new_game_solution w h dirs b pick with hF
  set server := serverPos w h with hserver
  apply Finset.Subset.antisymm
  · intro c hc
    exact mem_cellsFinset.mpr (hinv.visited_inb c hc)
  · intro u hu
    by_contra hunv
    have huin : inBounds w h u := mem_cellsFinset.mp hu
    have hus : u ≠ server := fun hc => hunv (hc ▸ hinv.server_mem)
    have hclosed : ∀ a ∈ F.visited, a ≠ server →
        ∀ e ∈ directionsList, inBounds w h (offCell a e) → offCell a e ∈ F.visited := by
      intro a ha has e he hin
      rcases hfr a ha with h1 | h1 | h1
      · exact absurd h1 has
      · rw [hstk] at h1
        exact absurd h1 (List.not_mem_nil a)
      · exact h1 e he hin
    have hmain : ∀ z ∈ F.visited, z ≠ server → reachAvoid w h server z u → False := by
      intro z hz hzs hreach
      obtain ⟨p, q, hpq, hp, hq⟩ := exists_crossing hreach hz hunv
      obtain ⟨hpin, hqin, hps, hqs, e, he, hqoff⟩ := hpq
      exact hq (hqoff ▸ hclosed p hp hps e he (hqoff ▸ hqin))
    have hsx : server.1 = ((w / 2 : Nat) : Int) := rfl
    have hsy : server.2 = ((h / 2 : Nat) : Int) := rfl
    have hsin : inBounds w h server := serverPos_inBounds hw hh
    obtain ⟨hu1a, hu1b, hu2a, hu2b⟩ := huin
    by_cases hw2 : 2 ≤ w
    · by_cases hh2 : 2 ≤ h
      · -- both dimensions at least 2: join through the corner (0, 0)
        have hseedin : ∃ e ∈ directionsList, inBounds w h (offCell server e) := by
          refine ⟨(-1, 0, LEFT, RIGHT), by decide, ?_⟩
          obtain ⟨hs1, hs2, hs3, hs4⟩ := hsin
          unfold offCell inBounds
          refine ⟨?_, ?_, ?_, ?_⟩ <;> simp only <;> omega
        obtain ⟨z, hz, hzs⟩ := hseed hseedin
        have hzin : inBounds w h z := hinv.visited_inb z hz
        have hs1 : 1 ≤ server.1 := by rw [hsx]; omega
        have hs2 : 1 ≤ server.2 := by rw [hsy]; omega
        have hr1 := reachAvoid_corner w h server hw2 hh2 hs1 hs2 z hzin hzs
        have hr2 := reachAvoid_corner w h server hw2 hh2 hs1 hs2 u
          ⟨hu1a, hu1b, hu2a, hu2b⟩ hus
        exact hmain z hz hzs (Relation.ReflTransGen.trans hr1 (reachAvoid_symm hr2))
      · -- single row (h = 1)
        have hh1 : h = 1 := by omega
        have hu2 : u.2 = server.2 := by
          rw [hsy]
          omega
        have husx : u.1 ≠ server.1 := by
          intro hcontra
          exact hus (cell_eq_iff.mpr ⟨hcontra, hu2⟩)
        have hcle : inBoundsNeighborCount w h server ≤ 2 := by
          unfold inBoundsNeighborCount directionsList
          simp only [List.countP_cons, List.countP_nil]
          have hU : (decide (inBounds w h (offCell server (0, -1, UP, DOWN)))) = false := by
            apply decide_eq_false
            unfold offCell inBounds
            simp only
            omega
          have hD : (decide (inBounds w h (offCell server (0, 1, DOWN, UP)))) = false := by
            apply decide_eq_false
            unfold offCell inBounds
            simp only
            omega
          rw [hU, hD]
          split_ifs <;> first
            | contradiction
            | omega
        rcases lt_or_gt_of_ne husx with hlt | hgt
        · -- u strictly left of the server: seed on the left neighbour
          have hein : inBounds w h (offCell server (-1, 0, LEFT, RIGHT)) := by
            unfold offCell inBounds
            refine ⟨?_, ?_, ?_, ?_⟩ <;> simp only <;> omega
          have hz := hall (le_trans hcle hb) (-1, 0, LEFT, RIGHT) (by decide) hein
          have hzs : offCell server (-1, 0, LEFT, RIGHT) ≠ server :=
            offCell_ne (by decide)
          apply hmain _ hz hzs
          have hofeq : offCell server ((-1 : Int), (0 : Int), LEFT, RIGHT) =
              (server.1 - 1, server.2) := by
            apply cell_eq_iff.mpr
            unfold offCell
            constructor <;> simp only <;> omega
          have hwalk : reachAvoid w h server (server.1 - 1, server.2) (u.1, server.2) := by
            apply reachAvoid_horiz
            intro x' hx1 hx2
            constructor
            · obtain ⟨hs1, hs2, hs3, hs4⟩ := hsin
              unfold inBounds
              refine ⟨?_, ?_, ?_, ?_⟩ <;> simp only <;> omega
            · intro hcontra
              have hxx : x' = server.1 := by
                have := congrArg Prod.fst hcontra
                simpa using this
              omega
          have huq : ((u.1, server.2) : Cell) = u := cell_eq_iff.mpr ⟨rfl, hu2.symm⟩
          rw [hofeq, ← huq]
          exact hwalk
        · -- u strictly right of the server: seed on the right neighbour
          have hein : inBounds w h (offCell server (1, 0, RIGHT, LEFT)) := by
            unfold offCell inBounds
            refine ⟨?_, ?_, ?_, ?_⟩ <;> simp only <;> omega
          have hz := hall (le_trans hcle hb) (1, 0, RIGHT, LEFT) (by decide) hein
          have hzs : offCell server (1, 0, RIGHT, LEFT) ≠ server :=
            offCell_ne (by decide)
          apply hmain _ hz hzs
          have hofeq : offCell server ((1 : Int), (0 : Int), RIGHT, LEFT) =
              (server.1 + 1, server.2) := by
            apply cell_eq_iff.mpr
            unfold offCell
            constructor <;> simp only <;> omega
          have hwalk : reachAvoid w h server (server.1 + 1, server.2) (u.1, server.2) := by
            apply reachAvoid_horiz
            intro x' hx1 hx2
            constructor
            · obtain ⟨hs1, hs2, hs3, hs4⟩ := hsin
              unfold inBounds
              refine ⟨?_, ?_, ?_, ?_⟩ <;> simp only <;> omega
            · intro hcontra
              have hxx : x' = server.1 := by
                have := congrArg Prod.fst hcontra
                simpa using this
              omega
          have huq : ((u.1, server.2) : Cell) = u := cell_eq_iff.mpr ⟨rfl, hu2.symm⟩
          rw [hofeq, ← huq]
          exact hwalk
    · -- single column (w = 1)
      have hw1 : w = 1 := by omega
      have hu1 : u.1 = server.1 := by
        rw [hsx]
        omega
      have husy : u.2 ≠ server.2 := by
        intro hcontra
        exact hus (cell_eq_iff.mpr ⟨hu1, hcontra⟩)
      have hcle : inBoundsNeighborCount w h server ≤ 2 := by
        unfold inBoundsNeighborCount directionsList
        simp only [List.countP_cons, List.countP_nil]
        have hR : (decide (inBounds w h (offCell server (1, 0, RIGHT, LEFT)))) = false := by
          apply decide_eq_false
          unfold offCell inBounds
          simp only
          omega
        have hL : (decide (inBounds w h (offCell server (-1, 0, LEFT, RIGHT)))) = false := by
          apply decide_eq_false
          unfold offCell inBounds
          simp only
          omega
        rw [hR, hL]
        split_ifs <;> first
          | contradiction
          | omega
      rcases lt_or_gt_of_ne husy with hlt | hgt
      · -- u strictly above the server: seed on the upper neighbour
        have hein : inBounds w h (offCell server (0, -1, UP, DOWN)) := by
          unfold offCell inBounds
          refine ⟨?_, ?_, ?_, ?_⟩ <;> simp only <;> omega
        have hz := hall (le_trans hcle hb) (0, -1, UP, DOWN) (by decide) hein
        have hzs : offCell server (0, -1, UP, DOWN) ≠ server := offCell_ne (by decide)
        apply hmain _ hz hzs
        have hofeq : offCell server ((0 : Int), (-1 : Int), UP, DOWN) =
            (server.1, server.2 - 1) := by
          apply cell_eq_iff.mpr
          unfold offCell
          constructor <;> simp only <;> omega
        have hwalk : reachAvoid w h server (server.1, server.2 - 1) (server.1, u.2) := by
          apply reachAvoid_vert
          intro y' hy1 hy2
          constructor
          · obtain ⟨hs1, hs2, hs3, hs4⟩ := hsin
            unfold inBounds
            refine ⟨?_, ?_, ?_, ?_⟩ <;> simp only <;> omega
          · intro hcontra
            have hyy : y' = server.2 := by
              have := congrArg Prod.snd hcontra
              simpa using this
            omega
        have huq : ((server.1, u.2) : Cell) = u := cell_eq_iff.mpr ⟨hu1.symm, rfl⟩
        rw [hofeq, ← huq]
        exact hwalk
      · -- u strictly below the server: seed on the lower neighbour
        have hein : inBounds w h (offCell server (0, 1, DOWN, UP)) := by
          unfold offCell inBounds
          refine ⟨?_, ?_, ?_, ?_⟩ <;> simp only <;> omega
        have hz := hall (le_trans hcle hb) (0, 1, DOWN, UP) (by decide) hein
        have hzs : offCell server (0, 1, DOWN, UP) ≠ server := offCell_ne (by decide)
        apply hmain _ hz hzs
        have hofeq : offCell server ((0 : Int), (1 : Int), DOWN, UP) =
            (server.1, server.2 + 1) := by
          apply cell_eq_iff.mpr
          unfold offCell
          constructor <;> simp only <;> omega
        have hwalk : reachAvoid w h server (server.1, server.2 + 1) (server.1, u.2) := by
          apply reachAvoid_vert
          intro y' hy1 hy2
          constructor
          · obtain ⟨hs1, hs2, hs3, hs4⟩ := hsin
            unfold inBounds
            refine ⟨?_, ?_, ?_, ?_⟩ <;> simp only <;> omega
          · intro hcontra
            have hyy : y' = server.2 := by
              have := congrArg Prod.snd hcontra
              simpa using this
            omega
        have huq : ((server.1, u.2) : Cell) = u := cell_eq_iff.mpr ⟨hu1.symm, rfl⟩
        rw [hofeq, ← huq]
        exact hwalk

/-- C2 counterexample: at width = height = 1 (a positive size), `new_game`
produces an all-blank solution grid — the server's mask is 0, there are 0
non-blank cells and 0 tree edges, so no connected component contains the
server and the claimed count identity `edges = non-blank − 1` fails
(`0 ≠ 0 - 1` over the integers). -/
theorem new_game_one_cell_counterexample :
    (new_game_solution 1 1 directionsList 2 (fun _ => 0)).grid (serverPos 1 1) = 0 ∧
      nonblankCount 1 1 (new_game_solution 1 1 directionsList 2 (fun _ => 0)).grid = 0 ∧
      sumPop 1 1 (new_game_solution 1 1 directionsList 2 (fun _ => 0)).grid = 0 ∧
      ((0 : Int) ≠ (0 : Int) - 1) := by
  refine ⟨?_, ?_, ?_, by decide⟩ <;> decide

/-- C2 (amended): for every grid with at least two cells, every direction
permutation, branch budget in {2, 3} and behaviour of the random picks,
the generation visits every cell (the visited set is exactly the grid),
every cell's solution mask is non-zero, every non-zero cell is reachable
from the server through mutually matching edges (one component, containing
the server), and the total bit count is `2 * (cells - 1)` — exactly
`non-blank-cells - 1` tree edges, so there are no cycles. -/
theorem new_game_spanning_tree (w h : Nat) (dirs : List (Int × Int × Nat × Nat))
    (b : Nat) (pick : Nat → Nat) (hw : 1 ≤ w) (hh : 1 ≤ h)
    (hdirs : dirs.Perm directionsList) (hb : b = 2 ∨ b = 3) (h2 : 2 ≤ w * h) :
    (new_game_solution w h dirs b pick).visited = cellsFinset w h ∧
      (∀ c ∈ cellsFinset w h, (new_game_solution w h dirs b pick).grid c ≠ 0) ∧
      (∀ c, (new_game_solution w h dirs b pick).grid c ≠ 0 →
        mutualReach w h (new_game_solution w h dirs b pick).grid (serverPos w h) c) ∧
      nonblankCount w h (new_game_solution w h dirs b pick).grid = w * h ∧
      sumPop w h (new_game_solution w h dirs b pick).grid = 2 * (w * h - 1) := by
  have hb2 : 2 ≤ b := by rcases hb with hb | hb <;> omega
  obtain ⟨hinv, hfr, hstk, hpop, hseed, hall⟩ :=
    new_game_base w h dirs b pick hw hh hdirs (by omega)
  have hvis := new_game_visits_all w h dirs b pick hw hh hdirs hb2
  have hsx : (serverPos w h).1 = ((w / 2 : Nat) : Int) := rfl
  have hsy : (serverPos w h).2 = ((h / 2 : Nat) : Int) := rfl
  have hcnt1 : 1 ≤ inBoundsNeighborCount w h (serverPos w h) := by
    apply List.countP_pos.mpr
    by_cases hw2 : 2 ≤ w
    · refine ⟨(-1, 0, LEFT, RIGHT), by decide, ?_⟩
      apply decide_eq_true
      unfold offCell inBounds
      refine ⟨?_, ?_, ?_, ?_⟩ <;> simp only <;> omega
    · have hh2 : 2 ≤ h := by
        have hw1 : w = 1 := by omega
        rw [hw1] at h2
        omega
      refine ⟨(0, -1, UP, DOWN), by decide, ?_⟩
      apply decide_eq_true
      unfold offCell inBounds
      refine ⟨?_, ?_, ?_, ?_⟩ <;> simp only <;> omega
  have hsrv_nonzero : (new_game_solution w h dirs b pick).grid (serverPos w h) ≠ 0 := by
    intro hzero
    rw [hzero] at hpop
    have h0 : popcountMask 0 = 0 := by decide
    rw [h0] at hpop
    omega
  have hnonblank : ∀ c ∈ cellsFinset w h,
      (new_game_solution w h dirs b pick).grid c ≠ 0 := by
    intro c hc
    by_cases hcs : c = serverPos w h
    · exact hcs ▸ hsrv_nonzero
    · exact hinv.nonblank_visited c (hvis ▸ hc) hcs
  refine ⟨hvis, hnonblank, ?_, ?_, ?_⟩
  · intro c hc
    have hcvis : c ∈ (new_game_solution w h dirs b pick).visited := by
      by_contra hcon
      exact hc (hinv.blank_unvisited c hcon)
    exact hinv.reach c hcvis
  · unfold nonblankCount
    rw [Finset.filter_true_of_mem hnonblank, card_cellsFinset]
  · have hcard : (new_game_solution w h dirs b pick).visited.card = w * h := by
      rw [hvis, card_cellsFinset]
    have := hinv.card_sum
    rw [hcard] at this
    exact this

/-- Witness for the amended C2 statement on a concrete 2×1 puzzle. -/
theorem new_game_spanning_tree_witness :
    (1 ≤ 2 ∧ 1 ≤ 1 ∧ directionsList.Perm directionsList ∧
        ((2 : Nat) = 2 ∨ (2 : Nat) = 3) ∧ 2 ≤ 2 * 1) ∧
      (new_game_solution 2 1 directionsList 2 (fun _ => 0)).visited = cellsFinset 2 1 ∧
      sumPop 2 1 (new_game_solution 2 1 directionsList 2 (fun _ => 0)).grid =
        2 * (2 * 1 - 1) :=
  ⟨⟨by decide, by decide, List.Perm.refl _, Or.inl rfl, by decide⟩,
    (new_game_spanning_tree 2 1 directionsList 2 (fun _ => 0) (by decide) (by decide)
      (List.Perm.refl _) (Or.inl rfl) (by decide)).1,
    (new_game_spanning_tree 2 1 directionsList 2 (fun _ => 0) (by decide) (by decide)
      (List.Perm.refl _) (Or.inl rfl) (by decide)).2.2.2.2⟩

/-- C9 counterexample: at width = height = 1 no branch is in bounds, so
the server's solution mask stays 0 — its degree is 0, not at least 2. -/
theorem new_game_server_degree_counterexample :
    popcountMask ((new_game_solution 1 1 directionsList 2 (fun _ => 0)).grid
        (serverPos 1 1)) = 0 ∧
      ¬ 2 ≤ popcountMask ((new_game_solution 1 1 directionsList 2 (fun _ => 0)).grid
        (serverPos 1 1)) := by
  decide

/-- C9 (amended): after `new_game`, the server's solution-mask degree is
exactly `min(initial_branches, number of in-bounds neighbours)`; in
particular it is at least 2 whenever the server has at least two in-bounds
neighbours (the branch budget being 2 or 3). -/
theorem new_game_server_degree (w h : Nat) (dirs : List (Int × Int × Nat × Nat))
    (b : Nat) (pick : Nat → Nat) (hw : 1 ≤ w) (hh : 1 ≤ h)
    (hdirs : dirs.Perm directionsList) (hb : b = 2 ∨ b = 3) :
    popcountMask ((new_game_solution w h dirs b pick).grid (serverPos w h)) =
      min b (inBoundsNeighborCount w h (serverPos w h)) ∧
      (2 ≤ inBoundsNeighborCount w h (serverPos w h) →
        2 ≤ popcountMask ((new_game_solution w h dirs b pick).grid (serverPos w h))) := by
  have hb2 : 2 ≤ b := by rcases hb with hb | hb <;> omega
  obtain ⟨-, -, -, hpop, -, -⟩ := new_game_base w h dirs b pick hw hh hdirs (by omega)
  refine ⟨hpop, ?_⟩
  intro h2
  rw [hpop]
  omega

/-- Witness for the amended C9 statement on a concrete 3×3 puzzle. -/
theorem new_game_server_degree_witness :
    (1 ≤ 3 ∧ 1 ≤ 3 ∧ directionsList.Perm directionsList ∧
        ((2 : Nat) = 2 ∨ (2 : Nat) = 3) ∧
        2 ≤ inBoundsNeighborCount 3 3 (serverPos 3 3)) ∧
      2 ≤ popcountMask ((new_game_solution 3 3 directionsList 2 (fun _ => 0)).grid
        (serverPos 3 3)) :=
  ⟨⟨by decide, by decide, List.Perm.refl _, Or.inl rfl, by decide⟩,
    (new_game_server_degree 3 3 directionsList 2 (fun _ => 0) (by decide) (by decide)
      (List.Perm.refl _) (Or.inl rfl)).2 (by decide)⟩


/-! ## Solver correctness: per-cell rotation facts -/

theorem applyMoves_append (l1 l2 : List Move) (G : Grid) :
    applyMoves (l1 ++ l2) G = applyMoves l2 (applyMoves l1 G) := by
  unfold applyMoves
  exact List.foldl_append _ _ _ _

theorem applyMoves_replicate_cw (c : Cell) :
    ∀ (j : Nat) (G : Grid),
      applyMoves (List.replicate j (c.1, c.2, "cw")) G c = rotIter j (G c) ∧
        ∀ x, x ≠ c → applyMoves (List.replicate j (c.1, c.2, "cw")) G x = G x := by
  intro j
  induction j with
  | zero =>
    intro G
    exact ⟨rfl, fun x _ => rfl⟩
  | succ j ih =>
    intro j2
    rw [List.replicate_succ]
    have hstep : applyMoves ((c.1, c.2, "cw") :: List.replicate j (c.1, c.2, "cw")) j2 =
        applyMoves (List.replicate j (c.1, c.2, "cw")) (applyMove j2 (c.1, c.2, "cw")) := rfl
    rw [hstep]
    obtain ⟨h1, h2⟩ := ih (applyMove j2 (c.1, c.2, "cw"))
    constructor
    · rw [h1]
      have hval : applyMove j2 (c.1, c.2, "cw") c = rotate_direction (j2 c) := by
        simp [applyMove, gupd]
      rw [hval]
      show rotate_direction^[j] (rotate_direction (j2 c)) = rotate_direction^[j + 1] (j2 c)
      rw [Function.iterate_succ_apply]
    · intro x hx
      rw [h2 x hx]
      simp [applyMove, gupd, hx]

theorem applyMoves_replicate_ccw (c : Cell) :
    ∀ (j : Nat) (G : Grid),
      applyMoves (List.replicate j (c.1, c.2, "ccw")) G c = ccwIter j (G c) ∧
        ∀ x, x ≠ c → applyMoves (List.replicate j (c.1, c.2, "ccw")) G x = G x := by
  intro j
  induction j with
  | zero =>
    intro G
    exact ⟨rfl, fun x _ => rfl⟩
  | succ j ih =>
    intro j2
    rw [List.replicate_succ]
    have hstep : applyMoves ((c.1, c.2, "ccw") :: List.replicate j (c.1, c.2, "ccw")) j2 =
        applyMoves (List.replicate j (c.1, c.2, "ccw")) (applyMove j2 (c.1, c.2, "ccw")) := rfl
    rw [hstep]
    obtain ⟨h1, h2⟩ := ih (applyMove j2 (c.1, c.2, "ccw"))
    constructor
    · rw [h1]
      have hval : applyMove j2 (c.1, c.2, "ccw") c = rotate_direction_ccw (j2 c) := by
        simp [applyMove, gupd]
      rw [hval]
      show rotate_direction_ccw^[j] (rotate_direction_ccw (j2 c)) =
        rotate_direction_ccw^[j + 1] (j2 c)
      rw [Function.iterate_succ_apply]
    · intro x hx
      rw [h2 x hx]
      simp [applyMove, gupd, hx]

/-- Exhaustive facts (over the 64 reachable mask pairs) about the two
bounded rotation-search loops of `collect_moves`: starting from any
clockwise rotation of a mask below 16, both searches succeed, and the
smaller of the two loop counters is exactly
`min (cwStepsSpec cur target) (4 - cwStepsSpec cur target)`. -/
theorem rotation_search_master : ∀ t < 16, ∀ k < 4,
    rotIter (whileRot rotate_direction t (rotIter k t) 0) (rotIter k t) = t ∧
      ccwIter (whileRot rotate_direction_ccw t (rotIter k t) 0) (rotIter k t) = t ∧
      min (whileRot rotate_direction t (rotIter k t) 0)
          (whileRot rotate_direction_ccw t (rotIter k t) 0) =
        min (cwStepsSpec (rotIter k t) t) (4 - cwStepsSpec (rotIter k t) t) ∧
      (rotIter k t = t → cwStepsSpec (rotIter k t) t = 0) := by
  decide

theorem movesForCell_length {start sol : Grid} {c : Cell} {k : Nat}
    (ht : sol c < 16) (hk : k < 4) (hcur : start c = rotIter k (sol c)) :
    (movesForCell start sol c).length =
      min (cwStepsSpec (start c) (sol c)) (4 - cwStepsSpec (start c) (sol c)) := by
  obtain ⟨m1, m2, m3, m4⟩ := rotation_search_master (sol c) ht k hk
  rw [← hcur] at m1 m2 m3 m4
  simp only [movesForCell]
  by_cases heq : start c = sol c
  · rw [if_neg (not_not_intro heq), m4 heq]
    simp
  · rw [if_pos heq]
    by_cases hle : whileRot rotate_direction (sol c) (start c) 0 ≤
        whileRot rotate_direction_ccw (sol c) (start c) 0
    · rw [if_pos hle]
      rw [List.length_replicate]
      omega
    · rw [if_neg hle]
      rw [List.length_replicate]
      omega

theorem movesForCell_apply {start sol : Grid} {c : Cell} {k : Nat}
    (ht : sol c < 16) (hk : k < 4) (hcur : start c = rotIter k (sol c))
    (G : Grid) (hG : G c = start c) :
    applyMoves (movesForCell start sol c) G c = sol c := by
  obtain ⟨m1, m2, m3, m4⟩ := rotation_search_master (sol c) ht k hk
  rw [← hcur] at m1 m2 m3 m4
  simp only [movesForCell]
  by_cases heq : start c = sol c
  · rw [if_neg (not_not_intro heq)]
    show G c = sol c
    rw [hG, heq]
  · rw [if_pos heq]
    by_cases hle : whileRot rotate_direction (sol c) (start c) 0 ≤
        whileRot rotate_direction_ccw (sol c) (start c) 0
    · rw [if_pos hle]
      rw [(applyMoves_replicate_cw c _ G).1, hG]
      exact m1
    · rw [if_neg hle]
      rw [(applyMoves_replicate_ccw c _ G).1, hG]
      exact m2

theorem movesForCell_frame (start sol : Grid) (c x : Cell) (hx : x ≠ c) (G : Grid) :
    applyMoves (movesForCell start sol c) G x = G x := by
  simp only [movesForCell]
  by_cases heq : start c ≠ sol c
  · rw [if_pos heq]
    by_cases hle : whileRot rotate_direction (sol c) (start c) 0 ≤
        whileRot rotate_direction_ccw (sol c) (start c) 0
    · rw [if_pos hle]
      exact (applyMoves_replicate_cw c _ G).2 x hx
    · rw [if_neg hle]
      exact (applyMoves_replicate_ccw c _ G).2 x hx
  · rw [if_neg heq]
    rfl

/-! ## Solver correctness: traversal structure -/

theorem collect_moves_eq_travList (start sol : Grid) (adj : Cell → List Cell) :
    ∀ (fuel : Nat) (node : Cell) (parent : Option Cell),
      collect_moves start sol adj fuel node parent =
        (travList adj fuel node parent).flatMap (movesForCell start sol) := by
  intro fuel
  induction fuel with
  | zero =>
    intro node parent
    rfl
  | succ fuel ih =>
    intro node parent
    show movesForCell start sol node ++ _ = _
    rw [travList, List.flatMap_cons]
    congr 1
    induction adj node with
    | nil => rfl
    | cons a L ihL =>
      rw [List.flatMap_cons, List.flatMap_cons, List.flatMap_append, ihL]
      congr 1
      by_cases hp : some a ≠ parent
      · rw [if_pos hp, if_pos hp, ih]
      · rw [if_neg hp, if_neg hp]
        rfl

theorem adjacency_mem {w h : Nat} {sol : Grid} {n m : Cell} (hn : inBounds w h n) :
    m ∈ adjacency w h sol n ↔
      ∃ e ∈ directionsList, m = offCell n e ∧ inBounds w h m ∧ sol n &&& e.2.2.1 ≠ 0 := by
  unfold adjacency
  rw [if_neg (not_not_intro hn)]
  by_cases h0 : sol n = 0
  · rw [if_pos h0]
    simp only [List.not_mem_nil, false_iff]
    rintro ⟨e, he, hm, hin, hbit⟩
    rw [h0, Nat.zero_and] at hbit
    exact hbit rfl
  · rw [if_neg h0, List.mem_filterMap]
    constructor
    · rintro ⟨⟨dx, dy, d, o⟩, he, hsome⟩
      simp only at hsome
      split_ifs at hsome with hbit hin
      · obtain rfl : ((n.1 + dx, n.2 + dy) : Cell) = m := Option.some.inj hsome
        exact ⟨(dx, dy, d, o), he, rfl, hin, hbit⟩
    · rintro ⟨e, he, hm, hin, hbit⟩
      obtain ⟨dx, dy, d, o⟩ := e
      refine ⟨(dx, dy, d, o), he, ?_⟩
      simp only
      rw [if_pos hbit]
      have hm2 : ((n.1 + dx, n.2 + dy) : Cell) = m := hm.symm
      rw [hm2, if_pos hin]

theorem adjacency_iff_mutual {w h : Nat} {sol : Grid} {n : Cell}
    (hn : inBounds w h n)
    (hsym : ∀ p, ∀ e ∈ directionsList, sol p &&& e.2.2.1 ≠ 0 →
      inBounds w h (offCell p e) ∧ sol (offCell p e) &&& e.2.2.2 ≠ 0) :
    ∀ m, m ∈ adjacency w h sol n ↔ mutualStep w h sol n m := by
  intro m
  rw [adjacency_mem hn]
  constructor
  · rintro ⟨⟨dx, dy, d, o⟩, he, hm, hin, hbit⟩
    obtain ⟨h1, h2⟩ := hsym n (dx, dy, d, o) he hbit
    have hm2 : m = ((n.1 + dx, n.2 + dy) : Cell) := hm
    exact ⟨dx, dy, d, o, he, hm2, hin, hbit, hm.symm ▸ h2⟩
  · rintro ⟨dx, dy, d, o, he, hm, hin, hbitn, hbitm⟩
    exact ⟨(dx, dy, d, o), he, hm, hin, hbitn⟩

theorem adjacency_nodup (w h : Nat) (sol : Grid) (n : Cell) :
    (adjacency w h sol n).Nodup := by
  have hpair : List.Pairwise (fun e f : Int × Int × Nat × Nat =>
      offCell n e ≠ offCell n f) directionsList := by
    unfold directionsList
    refine List.Pairwise.cons ?_ (List.Pairwise.cons ?_
      (List.Pairwise.cons ?_ (List.Pairwise.cons (fun f hf => absurd hf
        (List.not_mem_nil f)) List.Pairwise.nil)))
    all_goals
      intro f hf
      fin_cases hf <;>
        (intro heq; rw [cell_eq_iff] at heq; simp only [offCell] at heq; omega)
  have hfm : ∀ F : Int × Int × Nat × Nat → Option Cell,
      (∀ e x, x ∈ F e → x = offCell n e) →
      (directionsList.filterMap F).Nodup := by
    intro F hF
    unfold List.Nodup
    rw [List.pairwise_filterMap]
    refine hpair.imp ?_
    intro e f hne x hx y hy heq
    rw [hF e x hx, hF f y hy] at heq
    exact hne heq
  unfold adjacency
  split_ifs
  all_goals
    first
      | exact List.nodup_nil
      | (refine hfm _ ?_
         rintro ⟨dx, dy, d, o⟩ x hx
         simp only [Option.mem_def] at hx
         split_ifs at hx
         exact (Option.some.inj hx).symm)


/-! ## Solver correctness: parent chains of the generated tree -/

theorem parChain {w h : Nat} {g : Grid} {V : Finset Cell} {server : Cell}
    {par : Cell → Cell} {dep : Cell → Nat}
    (htd : TreeData w h g V server par dep) :
    ∀ (j : Nat) (c : Cell), c ∈ V → j ≤ dep c →
      par^[j] c ∈ V ∧ dep (par^[j] c) = dep c - j := by
  obtain ⟨htd0, htd1, _⟩ := htd
  intro j
  induction j with
  | zero =>
    intro c hc _
    exact ⟨hc, rfl⟩
  | succ j ih =>
    intro c hc hj
    have hcs : c ≠ server := by
      intro hcontra
      rw [hcontra, htd0] at hj
      omega
    obtain ⟨hp1, hp2, _, _⟩ := htd1 c hc hcs
    rw [Function.iterate_succ_apply]
    obtain ⟨ih1, ih2⟩ := ih (par c) hp1 (by omega)
    exact ⟨ih1, by rw [ih2]; omega⟩

theorem dep_zero_eq_server {w h : Nat} {g : Grid} {V : Finset Cell} {server : Cell}
    {par : Cell → Cell} {dep : Cell → Nat}
    (htd : TreeData w h g V server par dep) :
    ∀ c ∈ V, dep c = 0 → c = server := by
  obtain ⟨htd0, htd1, _⟩ := htd
  intro c hc h0
  by_contra hcs
  obtain ⟨_, hp2, _, _⟩ := htd1 c hc hcs
  omega

theorem chain_hits_server {w h : Nat} {g : Grid} {V : Finset Cell} {server : Cell}
    {par : Cell → Cell} {dep : Cell → Nat}
    (htd : TreeData w h g V server par dep) :
    ∀ c ∈ V, par^[dep c] c = server := by
  intro c hc
  obtain ⟨h1, h2⟩ := parChain htd (dep c) c hc le_rfl
  exact dep_zero_eq_server htd _ h1 (by omega)

theorem dep_lt_card {w h : Nat} {g : Grid} {V : Finset Cell} {server : Cell}
    {par : Cell → Cell} {dep : Cell → Nat}
    (htd : TreeData w h g V server par dep) :
    ∀ c ∈ V, dep c < V.card := by
  intro c hc
  have hmaps : ∀ i ∈ Finset.range (dep c + 1), par^[i] c ∈ V :=
    fun i hi => (parChain htd i c hc (by
      have := Finset.mem_range.mp hi
      omega)).1
  have hinj : Set.InjOn (fun i => par^[i] c) (Finset.range (dep c + 1)) := by
    intro i hi j hj hij
    have hi' : i ≤ dep c := by
      have := Finset.mem_range.mp (by simpa using hi)
      omega
    have hj' : j ≤ dep c := by
      have := Finset.mem_range.mp (by simpa using hj)
      omega
    have h1 := (parChain htd i c hc hi').2
    have h2 := (parChain htd j c hc hj').2
    rw [show par^[i] c = par^[j] c from hij] at h1
    omega
  have hle := Finset.card_le_card_of_injOn _ hmaps hinj
  rw [Finset.card_range] at hle
  omega

theorem inSubtree_self {par : Cell → Cell} {dep : Cell → Nat} {V : Finset Cell}
    {n : Cell} (hn : n ∈ V) : inSubtree par dep V n n := by
  refine ⟨hn, le_rfl, ?_⟩
  rw [Nat.sub_self]
  rfl

theorem inSubtree_mem {par : Cell → Cell} {dep : Cell → Nat} {V : Finset Cell}
    {n c : Cell} (hs : inSubtree par dep V n c) : c ∈ V := hs.1

theorem inSubtree_dep_le {par : Cell → Cell} {dep : Cell → Nat} {V : Finset Cell}
    {n c : Cell} (hs : inSubtree par dep V n c) : dep n ≤ dep c := hs.2.1

theorem inSubtree_step {par : Cell → Cell} {dep : Cell → Nat} {V : Finset Cell}
    {n m c : Cell} (hpar : par m = n) (hdep : dep m = dep n + 1)
    (hs : inSubtree par dep V m c) : inSubtree par dep V n c := by
  obtain ⟨h1, h2, h3⟩ := hs
  refine ⟨h1, by omega, ?_⟩
  have hk : dep c - dep n = (dep c - dep m) + 1 := by omega
  rw [hk, Function.iterate_succ_apply', h3, hpar]

theorem inSubtree_to_child {w h : Nat} {g : Grid} {V : Finset Cell} {server : Cell}
    {par : Cell → Cell} {dep : Cell → Nat}
    (htd : TreeData w h g V server par dep)
    {n c : Cell} (hs : inSubtree par dep V n c) (hne : c ≠ n) :
    ∃ m, par m = n ∧ m ∈ V ∧ m ≠ server ∧ dep m = dep n + 1 ∧
      inSubtree par dep V m c := by
  obtain ⟨h1, h2, h3⟩ := hs
  have hk : dep c - dep n ≠ 0 := by
    intro h0
    rw [h0] at h3
    exact hne h3
  obtain ⟨j, hj⟩ : ∃ j, dep c - dep n = j + 1 := ⟨dep c - dep n - 1, by omega⟩
  obtain ⟨hm1, hm2⟩ := parChain htd j c h1 (by omega)
  refine ⟨par^[j] c, ?_, hm1, ?_, by omega, h1, by omega, ?_⟩
  · rw [← Function.iterate_succ_apply' par j c, Nat.succ_eq_add_one, ← hj, h3]
  · intro hcontra
    rw [hcontra, htd.1] at hm2
    omega
  · have : dep c - dep (par^[j] c) = j := by omega
    rw [this]

theorem inSubtree_unique_at_depth {par : Cell → Cell} {dep : Cell → Nat}
    {V : Finset Cell} {m1 m2 c : Cell}
    (h1 : inSubtree par dep V m1 c) (h2 : inSubtree par dep V m2 c)
    (hd : dep m1 = dep m2) : m1 = m2 := by
  obtain ⟨_, _, hc1⟩ := h1
  obtain ⟨_, _, hc2⟩ := h2
  rw [← hc1, ← hc2, hd]


/-! ## Solver correctness: the traversal visits each subtree node once -/

theorem adjacency_child {w h : Nat} {g : Grid} {V : Finset Cell} {server : Cell}
    {par : Cell → Cell} {dep : Cell → Nat}
    (htd : TreeData w h g V server par dep)
    (hVin : ∀ c ∈ V, inBounds w h c)
    (hsym : ∀ p, ∀ e ∈ directionsList, g p &&& e.2.2.1 ≠ 0 →
      inBounds w h (offCell p e) ∧ g (offCell p e) &&& e.2.2.2 ≠ 0) :
    ∀ n ∈ V, ∀ parent : Option Cell,
      ((n = server ∧ parent = none) ∨ (n ≠ server ∧ parent = some (par n))) →
      ∀ m, m ∈ adjacency w h g n → some m ≠ parent →
        m ∈ V ∧ m ≠ server ∧ par m = n ∧ dep m = dep n + 1 := by
  intro n hnV parent hpar m hm hmp
  have hmut : mutualStep w h g n m :=
    (adjacency_iff_mutual (hVin n hnV) hsym m).mp hm
  rcases htd.2.2 n m hmut with ⟨hms, hmV, hpm⟩ | ⟨hns, _, hpn⟩
  · obtain ⟨_, hdep, _, _⟩ := htd.2.1 m hmV hms
    exact ⟨hmV, hms, hpm, by rw [hdep, hpm]⟩
  · exfalso
    rcases hpar with ⟨hns', _⟩ | ⟨_, hpar'⟩
    · exact hns hns'
    · apply hmp
      rw [hpar', hpn]

theorem adjacency_child_complete {w h : Nat} {g : Grid} {V : Finset Cell}
    {server : Cell} {par : Cell → Cell} {dep : Cell → Nat}
    (htd : TreeData w h g V server par dep)
    (hVin : ∀ c ∈ V, inBounds w h c)
    (hsym : ∀ p, ∀ e ∈ directionsList, g p &&& e.2.2.1 ≠ 0 →
      inBounds w h (offCell p e) ∧ g (offCell p e) &&& e.2.2.2 ≠ 0) :
    ∀ n, ∀ m ∈ V, m ≠ server → par m = n → m ∈ adjacency w h g n := by
  intro n m hmV hms hpm
  obtain ⟨hp1, _, _, hmut⟩ := htd.2.1 m hmV hms
  rw [hpm] at hmut hp1
  exact (adjacency_iff_mutual (hVin n hp1) hsym m).mpr hmut

/-- The `collect_moves` traversal of a generated tree, started at a node
with its true tree parent and enough fuel, visits exactly the nodes of
that node's subtree, each exactly once. -/
theorem travList_spec {w h : Nat} {g : Grid} {V : Finset Cell} {server : Cell}
    {par : Cell → Cell} {dep : Cell → Nat}
    (htd : TreeData w h g V server par dep)
    (hVin : ∀ c ∈ V, inBounds w h c)
    (hsym : ∀ p, ∀ e ∈ directionsList, g p &&& e.2.2.1 ≠ 0 →
      inBounds w h (offCell p e) ∧ g (offCell p e) &&& e.2.2.2 ≠ 0) :
    ∀ (fuel : Nat) (n : Cell) (parent : Option Cell),
      n ∈ V →
      ((n = server ∧ parent = none) ∨ (n ≠ server ∧ parent = some (par n))) →
      V.card - dep n ≤ fuel →
      (∀ c, c ∈ travList (adjacency w h g) fuel n parent ↔ inSubtree par dep V n c) ∧
        (travList (adjacency w h g) fuel n parent).Nodup := by
  intro fuel
  induction fuel with
  | zero =>
    intro n parent hnV _ hfuel
    exfalso
    have := dep_lt_card htd n hnV
    omega
  | succ fuel ih =>
    intro n parent hnV hpar hfuel
    have hchild := adjacency_child htd hVin hsym n hnV parent hpar
    have hchildspec : ∀ m ∈ adjacency w h g n, some m ≠ parent →
        (∀ c, c ∈ travList (adjacency w h g) fuel m (some n) ↔
          inSubtree par dep V m c) ∧
          (travList (adjacency w h g) fuel m (some n)).Nodup := by
      intro m hm hmp
      obtain ⟨hmV, hms, hpm, hdepm⟩ := hchild m hm hmp
      exact ih m (some n) hmV (Or.inr ⟨hms, by rw [hpm]⟩) (by omega)
    have hflat : ∀ L : List Cell, (∀ m ∈ L, m ∈ adjacency w h g n) → L.Nodup →
        (∀ c, (c ∈ L.flatMap fun child =>
            if some child ≠ parent then travList (adjacency w h g) fuel child (some n)
            else []) ↔
          ∃ m ∈ L, some m ≠ parent ∧ inSubtree par dep V m c) ∧
          (L.flatMap fun child =>
            if some child ≠ parent then travList (adjacency w h g) fuel child (some n)
            else []).Nodup := by
      intro L
      induction L with
      | nil =>
        intro _ _
        constructor
        · intro c
          simp
        · exact List.nodup_nil
      | cons a L ihL =>
        intro hLadj hLnd
        obtain ⟨hflatmem, hflatnd⟩ :=
          ihL (fun m hm => hLadj m (List.mem_cons_of_mem a hm))
            (List.nodup_cons.mp hLnd).2
        have haadj : a ∈ adjacency w h g n := hLadj a (List.mem_cons_self a L)
        simp only [List.flatMap_cons]
        constructor
        · intro c
          rw [List.mem_append, hflatmem c]
          constructor
          · rintro (hc | hc)
            · by_cases hap : some a ≠ parent
              · rw [if_pos hap] at hc
                exact ⟨a, List.mem_cons_self a L, hap,
                  ((hchildspec a haadj hap).1 c).mp hc⟩
              · rw [if_neg hap] at hc
                exact absurd hc (List.not_mem_nil c)
            · obtain ⟨m, hmL, hmp, hmc⟩ := hc
              exact ⟨m, List.mem_cons_of_mem a hmL, hmp, hmc⟩
          · rintro ⟨m, hmL, hmp, hmc⟩
            rcases List.mem_cons.mp hmL with rfl | hmL2
            · left
              rw [if_pos hmp]
              exact ((hchildspec m haadj hmp).1 c).mpr hmc
            · right
              exact ⟨m, hmL2, hmp, hmc⟩
        · rw [List.nodup_append]
          refine ⟨?_, hflatnd, ?_⟩
          · by_cases hap : some a ≠ parent
            · rw [if_pos hap]
              exact (hchildspec a haadj hap).2
            · rw [if_neg hap]
              exact List.nodup_nil
          · intro c hc1 hc2
            by_cases hap : some a ≠ parent
            · rw [if_pos hap] at hc1
              have hsub1 := ((hchildspec a haadj hap).1 c).mp hc1
              obtain ⟨m, hmL, hmp, hsub2⟩ := (hflatmem c).mp hc2
              have hmadj := hLadj m (List.mem_cons_of_mem a hmL)
              have hda := (hchild a haadj hap).2.2.2
              have hdm := (hchild m hmadj hmp).2.2.2
              have ham : a = m := inSubtree_unique_at_depth hsub1 hsub2 (by omega)
              exact (List.nodup_cons.mp hLnd).1 (ham ▸ hmL)
            · rw [if_neg hap] at hc1
              exact absurd hc1 (List.not_mem_nil c)
    obtain ⟨hfm, hfn⟩ :=
      hflat (adjacency w h g n) (fun m hm => hm) (adjacency_nodup w h g n)
    have hunfold : travList (adjacency w h g) (fuel + 1) n parent =
        n :: ((adjacency w h g n).flatMap fun child =>
          if some child ≠ parent then travList (adjacency w h g) fuel child (some n)
          else []) := rfl
    rw [hunfold]
    constructor
    · intro c
      rw [List.mem_cons, hfm c]
      constructor
      · rintro (rfl | ⟨m, hmadj, hmp, hmc⟩)
        · exact inSubtree_self hnV
        · obtain ⟨hmV, hms, hpm, hdepm⟩ := hchild m hmadj hmp
          exact inSubtree_step hpm hdepm hmc
      · intro hc
        by_cases hcn : c = n
        · exact Or.inl hcn
        · obtain ⟨m, hpm, hmV, hms, hdepm, hmc⟩ := inSubtree_to_child htd hc hcn
          have hmadj : m ∈ adjacency w h g n :=
            adjacency_child_complete htd hVin hsym n m hmV hms hpm
          have hmp : some m ≠ parent := by
            rcases hpar with ⟨_, hp⟩ | ⟨hns, hp⟩
            · rw [hp]
              exact Option.some_ne_none m
            · rw [hp]
              intro hcontra
              have hmeq : m = par n := Option.some.inj hcontra
              obtain ⟨_, hdepn, _, _⟩ := htd.2.1 n hnV hns
              rw [hmeq] at hdepm
              omega
          exact Or.inr ⟨m, hmadj, hmp, hmc⟩
    · rw [List.nodup_cons]
      refine ⟨?_, hfn⟩
      intro hc
      obtain ⟨m, hmadj, hmp, hmc⟩ := (hfm n).mp hc
      have hdepm := (hchild m hmadj hmp).2.2.2
      have := inSubtree_dep_le hmc
      omega


/-! ## Solver correctness: applying the per-cell move blocks -/

theorem applyMoves_flatMap (start sol : Grid) :
    ∀ (L : List Cell) (G : Grid),
      L.Nodup →
      (∀ c ∈ L, sol c < 16 ∧ (∃ k < 4, start c = rotIter k (sol c)) ∧ G c = start c) →
      (∀ c ∈ L, applyMoves (L.flatMap (movesForCell start sol)) G c = sol c) ∧
        (∀ c, c ∉ L → applyMoves (L.flatMap (movesForCell start sol)) G c = G c) := by
  intro L
  induction L with
  | nil =>
    intro G _ _
    exact ⟨fun c hc => absurd hc (List.not_mem_nil c), fun c _ => rfl⟩
  | cons a L ihL =>
    intro G hnd hfacts
    simp only [List.flatMap_cons, applyMoves_append]
    set G1 := applyMoves (movesForCell start sol a) G with hG1
    obtain ⟨ha16, ⟨k, hk, hak⟩, haG⟩ := hfacts a (List.mem_cons_self a L)
    have hG1a : G1 a = sol a := movesForCell_apply ha16 hk hak G haG
    have hG1other : ∀ x, x ≠ a → G1 x = G x :=
      fun x hx => movesForCell_frame start sol a x hx G
    have hnd2 := List.nodup_cons.mp hnd
    obtain ⟨ihm, ihf⟩ := ihL G1 hnd2.2 (by
      intro c hc
      obtain ⟨h1, h2, h3⟩ := hfacts c (List.mem_cons_of_mem a hc)
      exact ⟨h1, h2, by rw [hG1other c (fun hca => hnd2.1 (hca ▸ hc)), h3]⟩)
    constructor
    · intro c hc
      rcases List.mem_cons.mp hc with rfl | hc2
      · rw [ihf c hnd2.1]
        exact hG1a
      · exact ihm c hc2
    · intro c hc
      have hca : c ≠ a := fun hcontra => hc (hcontra ▸ List.mem_cons_self a L)
      have hcl : c ∉ L := fun hcontra => hc (List.mem_cons_of_mem a hcontra)
      rw [ihf c hcl]
      exact hG1other c hca


/-- C1: for every puzzle produced by `new_game` (any grid size, any
behaviour of the random source) and every starting grid in which each
cell's mask is some 0–3-step clockwise rotation of the corresponding
solution mask, applying the moves returned by `solve_with_tree_dp` in
order transforms the starting grid into a grid cell-wise equal to the
solution grid, and the number of returned moves is the sum over all
cells of `min (cw_steps) (4 - cw_steps)`, where `cw_steps` is the least
k in 0–3 with k clockwise rotations of the cell's starting mask equal
to its solution mask. -/
theorem solve_with_tree_dp_correct (w h : Nat) (dirs : List (Int × Int × Nat × Nat))
    (b : Nat) (pick : Nat → Nat) (start : Grid) (hw : 1 ≤ w) (hh : 1 ≤ h)
    (hdirs : dirs.Perm directionsList) (hb : b = 2 ∨ b = 3)
    (hstart : ∀ c ∈ cellsFinset w h, ∃ k ≤ 3,
      start c = rotIter k ((new_game_solution w h dirs b pick).grid c)) :
    (∀ c ∈ cellsFinset w h,
        applyMoves
          (solve_with_tree_dp w h (serverPos w h)
            (new_game_solution w h dirs b pick).grid start) start c =
          (new_game_solution w h dirs b pick).grid c) ∧
      (solve_with_tree_dp w h (serverPos w h)
          (new_game_solution w h dirs b pick).grid start).length =
        ∑ c ∈ cellsFinset w h,
          min (cwStepsSpec (start c) ((new_game_solution w h dirs b pick).grid c))
            (4 - cwStepsSpec (start c) ((new_game_solution w h dirs b pick).grid c)) := by
  obtain ⟨hinv, -, -, -, -, -⟩ :=
    new_game_base w h dirs b pick hw hh hdirs (by omega)
  have hvis := new_game_visits_all w h dirs b pick hw hh hdirs (by omega)
  set F := new_game_solution w h dirs b pick with hF
  set sol := F.grid with hsoldef
  set server := serverPos w h with hserver
  obtain ⟨par, dep, htd⟩ := hinv.tree
  have hVin : ∀ c ∈ F.visited, inBounds w h c := hinv.visited_inb
  have hsym : ∀ p, ∀ e ∈ directionsList, sol p &&& e.2.2.1 ≠ 0 →
      inBounds w h (offCell p e) ∧ sol (offCell p e) &&& e.2.2.2 ≠ 0 := hinv.sym
  have hfuel : F.visited.card - dep server ≤ w * h + 1 := by
    have hcard : F.visited.card ≤ w * h := by
      rw [hvis, card_cellsFinset]
    omega
  obtain ⟨htravmem, htravnd⟩ := travList_spec htd hVin hsym (w * h + 1) server none
    hinv.server_mem (Or.inl ⟨rfl, rfl⟩) hfuel
  set trav := travList (adjacency w h sol) (w * h + 1) server none with htravdef
  have hmemV : ∀ c, c ∈ trav ↔ c ∈ cellsFinset w h := by
    intro c
    rw [← hvis]
    rw [htravmem c]
    constructor
    · exact fun hs => hs.1
    · intro hc
      refine ⟨hc, ?_, ?_⟩
      · rw [htd.1]
        exact Nat.zero_le _
      · rw [htd.1, Nat.sub_zero]
        exact chain_hits_server htd c hc
  have hsolvedef : solve_with_tree_dp w h server sol start =
      trav.flatMap (movesForCell start sol) := by
    show collect_moves start sol (adjacency w h sol) (w * h + 1) server none = _
    exact collect_moves_eq_travList start sol (adjacency w h sol) (w * h + 1) server none
  have hfacts : ∀ c ∈ trav, sol c < 16 ∧
      (∃ k < 4, start c = rotIter k (sol c)) ∧ start c = start c := by
    intro c hc
    obtain ⟨k, hk3, hck⟩ := hstart c ((hmemV c).mp hc)
    exact ⟨hinv.mask_lt c, ⟨k, by omega, hck⟩, rfl⟩
  obtain ⟨happ, -⟩ := applyMoves_flatMap start sol trav start htravnd hfacts
  constructor
  · intro c hc
    rw [hsolvedef]
    exact happ c ((hmemV c).mpr hc)
  · rw [hsolvedef, List.length_flatMap]
    have hmapeq : trav.map (List.length ∘ movesForCell start sol) =
        trav.map (fun c => min (cwStepsSpec (start c) (sol c))
          (4 - cwStepsSpec (start c) (sol c))) := by
      apply List.map_congr_left
      intro c hc
      obtain ⟨k, hk3, hck⟩ := hstart c ((hmemV c).mp hc)
      show (movesForCell start sol c).length = _
      exact movesForCell_length (hinv.mask_lt c) (by omega) hck
    rw [hmapeq]
    have htfin : trav.toFinset = cellsFinset w h := by
      apply Finset.ext
      intro c
      rw [List.mem_toFinset]
      exact hmemV c
    rw [← htfin]
    exact (List.sum_toFinset _ htravnd).symm


/-- Witness for C1 at the 1×1 puzzle with the identity scramble. -/
theorem solve_with_tree_dp_correct_witness :
    ((1 : Nat) ≤ 1 ∧ directionsList.Perm directionsList ∧
        ((2 : Nat) = 2 ∨ (2 : Nat) = 3) ∧
        (∀ c ∈ cellsFinset 1 1, ∃ k ≤ 3, (fun _ => (0 : Nat) : Grid) c =
          rotIter k ((new_game_solution 1 1 directionsList 2 (fun _ => 0)).grid c))) ∧
      ((∀ c ∈ cellsFinset 1 1,
          applyMoves
            (solve_with_tree_dp 1 1 (serverPos 1 1)
              (new_game_solution 1 1 directionsList 2 (fun _ => 0)).grid
              (fun _ => 0)) (fun _ => 0) c =
            (new_game_solution 1 1 directionsList 2 (fun _ => 0)).grid c) ∧
        (solve_with_tree_dp 1 1 (serverPos 1 1)
            (new_game_solution 1 1 directionsList 2 (fun _ => 0)).grid
            (fun _ => 0)).length =
          ∑ c ∈ cellsFinset 1 1,
            min
              (cwStepsSpec ((fun _ => (0 : Nat) : Grid) c)
                ((new_game_solution 1 1 directionsList 2 (fun _ => 0)).grid c))
              (4 - cwStepsSpec ((fun _ => (0 : Nat) : Grid) c)
                ((new_game_solution 1 1 directionsList 2 (fun _ => 0)).grid c))) := by
  have hstart : ∀ c ∈ cellsFinset 1 1, ∃ k ≤ 3, (fun _ => (0 : Nat) : Grid) c =
      rotIter k ((new_game_solution 1 1 directionsList 2 (fun _ => 0)).grid c) := by
    intro c hc
    obtain ⟨h1, h2, h3, h4⟩ := mem_cellsFinset.mp hc
    have hc0 : c = ((0 : Int), (0 : Int)) := by
      apply cell_eq_iff.mpr
      constructor <;> omega
    subst hc0
    refine ⟨0, by omega, ?_⟩
    have hval : (new_game_solution 1 1 directionsList 2
        (fun _ => 0)).grid ((0 : Int), (0 : Int)) = 0 := by decide
    show (0 : Nat) =
      rotIter 0 ((new_game_solution 1 1 directionsList 2 (fun _ => 0)).grid (0, 0))
    rw [hval]
    rfl
  exact ⟨⟨le_rfl, List.Perm.refl _, Or.inl rfl, hstart⟩,
    solve_with_tree_dp_correct 1 1 directionsList 2 (fun _ => 0) (fun _ => 0)
      le_rfl le_rfl (List.Perm.refl _) (Or.inl rfl) hstart⟩


end NetPuzzle
